import Mathlib

/-!
Verification of the layered-summary core (`agents_lib.py`, `agents_plan.py`):
glob compiler, tree scanner, directory classifier, and change-set resolver.

The Python source is embedded shallowly:

* Compiled regexes (`re.Pattern`) are represented by `GlobRx`: the regex
  source text (`rx.pattern`, used by `_include_mentions_dir_name`) together
  with a token list interpreted by `tokMatch`, which implements the matching
  semantics of the regexes that `_glob_to_regex` can emit (`^...$`-anchored
  sequences of literals, `[^/]*`, `[^/]`, `.*`, `(?:[^/]+/)*` and character
  classes).  `re.compile` raising on an invalid pattern is modelled by
  `globToRegex` returning `none`.
* The filesystem is a finite tree `FSDir` (immediate files and named
  subdirectories); `os.walk` becomes the recursion of `walkDir`.
* Python dicts keyed by relative path become association lists (for the
  returned maps) or total functions with the `.get(_, default)` default
  (for the classifier's work maps).
* Machine-independent data only: strings, lists, Nat.
-/

/-- Names from `ALWAYS_IGNORE_DIR_NAMES` in agents_lib.py. -/
def ALWAYS_IGNORE_DIR_NAMES : List String :=
  [".git", ".hg", ".svn", ".cursor", ".claude", ".codex", "__pycache__"]

/-- Names from `DEFAULT_SKIP_DESCEND_DIR_NAMES` in agents_lib.py. -/
def DEFAULT_SKIP_DESCEND_DIR_NAMES : List String :=
  ["node_modules", "bower_components", "jspm_packages"]

/-! ## Glob compiler (`_normalize_glob_pattern`, `_glob_to_regex`) -/

/-- Drop leading '/' characters: the `while p.startswith("/")` loop. -/
def dropLeadingSlashes : List Char → List Char
  | '/' :: rest => dropLeadingSlashes rest
  | cs => cs

/-- Python `str.isspace` on the ASCII whitespace stripped by `str.strip`. -/
def isPySpace (c : Char) : Bool :=
  c = ' ' || c = '\t' || c = '\n' || c = '\r' || c = '\x0b' || c = '\x0c'

/-- `p.strip()`: remove leading and trailing whitespace. -/
def stripChars (cs : List Char) : List Char :=
  ((cs.dropWhile isPySpace).reverse.dropWhile isPySpace).reverse

/-- `_normalize_glob_pattern`: strip whitespace, one leading "./", leading '/'s. -/
def normalizeGlobPattern (p : String) : String :=
  let cs := stripChars p.toList
  let cs := match cs with
    | '.' :: '/' :: rest => rest
    | other => other
  String.mk (dropLeadingSlashes cs)

/-- One token of a compiled glob regex.  Each constructor corresponds to one
chunk of regex text appended by the loop in `_glob_to_regex`. -/
inductive GlobTok : Type where
  /-- The regex "a^" produced for the empty pattern; it matches nothing. -/
  | never : GlobTok
  /-- An escaped literal character (`re.escape(ch)`). -/
  | lit : Char → GlobTok
  /-- "[^/]*", produced for `*`. -/
  | star : GlobTok
  /-- "[^/]", produced for `?`. -/
  | one : GlobTok
  /-- ".*", produced for `**`. -/
  | dstar : GlobTok
  /-- "(?:[^/]+/)*", produced for `**/`. -/
  | dstarSlash : GlobTok
  /-- A character class "[body]"; `body` is the class body after the
  `!`/`^` conversion (never contains a closing bracket). -/
  | cls : List Char → GlobTok
  deriving DecidableEq

/-- A compiled pattern: regex source text (`rx.pattern`) plus its tokens. -/
structure GlobRx : Type where
  src : String
  toks : List GlobTok
  deriving DecidableEq

/-- Characters escaped by Python's `re.escape` (everything else is kept). -/
def pyRegexSpecial : List Char :=
  ['(', ')', '[', ']', '\x7b', '\x7d', '?', '*', '+', '-', '|', '^', '$',
   '\\', '.', '&', '~', '#', ' ', '\t', '\n', '\r', '\x0b', '\x0c']

/-- `re.escape` restricted to a single character. -/
def reEscape (c : Char) : String :=
  if c ∈ pyRegexSpecial then String.mk ['\\', c] else String.mk [c]

/-- Scan to the first ']' (the `while pattern[j] != "]"` loop); returns the
scanned prefix and the remainder after the ']', or `none` if no ']' exists. -/
def scanToClose : List Char → Option (List Char × List Char)
  | [] => none
  | c :: rest =>
    if c = ']' then some ([], rest)
    else (scanToClose rest).map (fun pr => (c :: pr.1, pr.2))

/-- The class scan of `_glob_to_regex`: after a '[', skip one leading `!`/`^`
before looking for the closing ']'.  Returns `stuff` and the rest of the
pattern, or `none` for a malformed class (no closing bracket). -/
def scanClassBody : List Char → Option (List Char × List Char)
  | [] => none
  | c :: rest =>
    if c = '!' ∨ c = '^' then (scanToClose rest).map (fun pr => (c :: pr.1, pr.2))
    else scanToClose (c :: rest)

/-- `if stuff and stuff[0] in "!^": stuff = "^" + stuff[1:]`. -/
def convertClassBody : List Char → List Char
  | c :: rest => if c = '!' ∨ c = '^' then '^' :: rest else c :: rest
  | [] => []

/-- Validity of the items of a regex character class body, mirroring Python's
class parser on the bodies reachable here (no ']' inside).  A trailing lone
backslash escapes the closing ']' and leaves the class unterminated; a range
`lo-hi` needs `lo ≤ hi`.  Escaped items `\c` are treated as the character `c`
(Python additionally rejects a few letter escapes inside classes; no claim
below depends on those). -/
def classItemsValid : List Char → Bool
  | [] => true
  | ['\\'] => false
  | '\\' :: _ :: '-' :: ['\\'] => false
  | '\\' :: lo :: '-' :: '\\' :: hi :: rest =>
      decide (lo ≤ hi) && classItemsValid rest
  | '\\' :: lo :: '-' :: hi :: rest =>
      decide (lo ≤ hi) && classItemsValid rest
  | '\\' :: _ :: rest => classItemsValid rest
  | _ :: '-' :: ['\\'] => false
  | lo :: '-' :: '\\' :: hi :: rest =>
      decide (lo ≤ hi) && classItemsValid rest
  | lo :: '-' :: hi :: rest =>
      decide (lo ≤ hi) && classItemsValid rest
  | _ :: rest => classItemsValid rest

/-- Whether `re.compile` accepts the class chunk "[" ++ body ++ "]" emitted by
`_glob_to_regex`.  An empty body gives "[]" and a body that is just "^" gives
"[^]"; in both Python treats the ']' as a literal first member and then hits
the end of the class without a terminator, raising "unterminated character
set".  (This is how a pattern such as "[]" makes `_glob_to_regex` raise.) -/
def classBodyValid (body : List Char) : Bool :=
  match body with
  | [] => false
  | '^' :: rest => !rest.isEmpty && classItemsValid rest
  | _ => classItemsValid body

/-- Membership of a character in the (non-negated) items of a class body. -/
def classItemsMatch (c : Char) : List Char → Bool
  | [] => false
  | ['\\'] => false
  | '\\' :: _ :: '-' :: ['\\'] => false
  | '\\' :: lo :: '-' :: '\\' :: hi :: rest =>
      (decide (lo ≤ c) && decide (c ≤ hi)) || classItemsMatch c rest
  | '\\' :: lo :: '-' :: hi :: rest =>
      (decide (lo ≤ c) && decide (c ≤ hi)) || classItemsMatch c rest
  | '\\' :: x :: rest => c == x || classItemsMatch c rest
  | _ :: '-' :: ['\\'] => false
  | lo :: '-' :: '\\' :: hi :: rest =>
      (decide (lo ≤ c) && decide (c ≤ hi)) || classItemsMatch c rest
  | lo :: '-' :: hi :: rest =>
      (decide (lo ≤ c) && decide (c ≤ hi)) || classItemsMatch c rest
  | x :: rest => c == x || classItemsMatch c rest

/-- Matching one character against a class body (with possible negation).
A negated class matches any character not in the set, including '/'. -/
def classMatches (body : List Char) (c : Char) : Bool :=
  match body with
  | '^' :: rest => !classItemsMatch c rest
  | _ => classItemsMatch c body

/-- Split off one "[^/]+/" group: at least one non-'/' character followed by
the first '/'.  Helper for the "(?:[^/]+/)*" token. -/
def segSplitAux : List Char → Option (List Char)
  | [] => none
  | '/' :: rest => some rest
  | _ :: rest => segSplitAux rest

/-- `segSplit s = some r` iff `s = seg ++ "/" ++ r` with `seg` nonempty and
'/'-free (the unique way "[^/]+/" can match a prefix of `s`). -/
def segSplit : List Char → Option (List Char)
  | [] => none
  | '/' :: _ => none
  | _ :: rest => segSplitAux rest

/-- Anchored matching of a token sequence against a string, as Python's
`rx.match` behaves on the `^...$` regexes built by `_glob_to_regex`:
the `$` also matches just before one trailing newline, and `.` (inside
".*") does not match a newline.  `fuel` only forces termination; every use
supplies `toks.length + s.length + 1`, which is sufficient because each
recursive call decreases `toks.length + s.length`. -/
def tokMatch : Nat → List GlobTok → List Char → Bool
  | 0, _, _ => false
  | _ + 1, [], s => s.isEmpty || s == ['\n']
  | _ + 1, .never :: _, _ => false
  | fuel + 1, .lit c :: ts, s =>
    match s with
    | x :: xs => c == x && tokMatch fuel ts xs
    | [] => false
  | fuel + 1, .one :: ts, s =>
    match s with
    | x :: xs => x != '/' && tokMatch fuel ts xs
    | [] => false
  | fuel + 1, .cls body :: ts, s =>
    match s with
    | x :: xs => classMatches body x && tokMatch fuel ts xs
    | [] => false
  | fuel + 1, .star :: ts, s =>
    tokMatch fuel ts s ||
      match s with
      | x :: xs => x != '/' && tokMatch fuel (.star :: ts) xs
      | [] => false
  | fuel + 1, .dstar :: ts, s =>
    tokMatch fuel ts s ||
      match s with
      | x :: xs => x != '\n' && tokMatch fuel (.dstar :: ts) xs
      | [] => false
  | fuel + 1, .dstarSlash :: ts, s =>
    tokMatch fuel ts s ||
      match segSplit s with
      | some rest => tokMatch fuel (.dstarSlash :: ts) rest
      | none => false

/-- `rx.match(path)` (as a boolean) for a compiled pattern. -/
def globMatches (rx : GlobRx) (path : String) : Bool :=
  tokMatch (rx.toks.length + path.length + 1) rx.toks path.toList

/-- The translation loop of `_glob_to_regex`, producing for each step the
token and the regex text chunk it appends.  `none` models `re.compile`
raising on the assembled pattern (only possible through an invalid character
class chunk; every other chunk is a fixed valid regex fragment or an escaped
literal).  `fuel` only forces termination across the class scan; it is
unreachable to exhaust it when `fuel > length of the input`, since every
step consumes at least one character and one unit of fuel. -/
def globTransFuel : Nat → List Char → Option (List (GlobTok × String))
  | 0, _ => none
  | fuel + 1, cs =>
    match cs with
    | [] => some []
    | '*' :: '*' :: '/' :: rest =>
        (globTransFuel fuel rest).map (List.cons (.dstarSlash, "(?:[^/]+/)*"))
    | '*' :: '*' :: rest =>
        (globTransFuel fuel rest).map (List.cons (.dstar, ".*"))
    | '*' :: rest =>
        (globTransFuel fuel rest).map (List.cons (.star, "[^/]*"))
    | '?' :: rest =>
        (globTransFuel fuel rest).map (List.cons (.one, "[^/]"))
    | '[' :: rest =>
      match scanClassBody rest with
      | none => (globTransFuel fuel rest).map (List.cons (.lit '[', reEscape '['))
      | some (stuff, rest') =>
        let body := convertClassBody stuff
        if classBodyValid body then
          (globTransFuel fuel rest').map
            (List.cons (.cls body, "[" ++ String.mk body ++ "]"))
        else none
    | c :: rest =>
        (globTransFuel fuel rest).map (List.cons (.lit c, reEscape c))

/-- The translation loop at its sufficient fuel. -/
def globTrans (cs : List Char) : Option (List (GlobTok × String)) :=
  globTransFuel (cs.length + 1) cs

/-- `_glob_to_regex`: normalize, special-case the empty pattern (regex "a^",
which matches nothing), else translate and assemble "^...$".  `none` models
`re.compile` raising. -/
def globToRegex (pattern : String) : Option GlobRx :=
  let p := normalizeGlobPattern pattern
  if p = "" then some { src := "a^", toks := [.never] }
  else
    (globTrans p.toList).map (fun pieces =>
      { src := "^" ++ String.join (pieces.map (fun pr => pr.2)) ++ "$"
        toks := pieces.map (fun pr => pr.1) })

/-- `_matches_any`: true if any compiled pattern matches the path. -/
def matchesAny (pathPosix : String) (globs : List GlobRx) : Bool :=
  globs.any (fun rx => globMatches rx pathPosix)

/-- `_dir_match_path`. -/
def dirMatchPath (relDir : String) : String :=
  if relDir = "." then "./" else relDir ++ "/"

/-- `_file_match_path`. -/
def fileMatchPath (relDir : String) (filename : String) : String :=
  if relDir = "." then filename else relDir ++ "/" ++ filename

/-- Substring test on character lists (Python's `in` on strings). -/
def listHasInfix (sub : List Char) : List Char → Bool
  | [] => sub.isEmpty
  | c :: rest => sub.isPrefixOf (c :: rest) || listHasInfix sub rest

/-- Python `needle in hay` for strings. -/
def strContainsSub (hay needle : String) : Bool :=
  listHasInfix needle.toList hay.toList

/-- `_include_mentions_dir_name`: `any(needle in rx.pattern for rx in include)`
— a substring check of the directory name against the compiled pattern text. -/
def includeMentionsDirName (inc : List GlobRx) (dirName : String) : Bool :=
  inc.any (fun rx => strContainsSub rx.src dirName)

/-! ## Tree scanner (`scan_tree`) -/

/-- `_rel_dir(root, d_abs / name)` for a directory at relative path `rel`:
the root is "."; joining appends a path segment. -/
def joinRel (rel : String) (name : String) : String :=
  if rel = "." then name else rel ++ "/" ++ name

/-- `0 if rel == "." else len(Path(rel).parts)`.  For the scanner's relative
paths (nonempty '/'-free segments joined with '/'), the number of parts is
the number of '/' characters plus one. -/
def relDepth (rel : String) : Nat :=
  if rel = "." then 0 else rel.toList.count '/' + 1

/-- One visited directory (the `DirNode` dataclass; the `abs` field is a
filesystem handle used only for I/O and is not modelled). -/
structure DirNode : Type where
  rel : String
  depth : Nat
  subdirs_one_hop : List String
  files_one_hop : List String
  children : List String
  deriving DecidableEq

/-- Insertion into a list sorted by `le`. -/
def insertLe (le : α → α → Bool) (a : α) : List α → List α
  | [] => [a]
  | b :: bs => if le a b then a :: b :: bs else b :: insertLe le a bs

/-- Insertion sort by `le` (stable: an element is placed before the later
elements it compares `le` to, matching Python's stable `sorted`). -/
def sortLe (le : α → α → Bool) : List α → List α
  | [] => []
  | x :: xs => insertLe le x (sortLe le xs)

/-- Lexicographic code-point comparison of character lists (Python `<=`). -/
def strLeList : List Char → List Char → Bool
  | [], _ => true
  | _ :: _, [] => false
  | a :: as, b :: bs => if a = b then strLeList as bs else decide (a.toNat < b.toNat)

/-- Python string `<=` (lexicographic by code points). -/
def strLe (a b : String) : Bool := strLeList a.toList b.toList

/-- `list.sort()` on strings (lexicographic by code points). -/
def sortStr (l : List String) : List String :=
  sortLe strLe l

/-- The one-hop ledger filter of `scan_tree` (lines building `one_hop_dirs`):
always-ignored names are never listed; default-skip names are listed only
when not ignored and explicitly included (by a direct match or by the
mentions heuristic); every other name is listed. -/
def oneHopKeep (inc ign : List GlobRx) (rel : String) (d : String) : Bool :=
  if d ∈ ALWAYS_IGNORE_DIR_NAMES then false
  else if d ∈ DEFAULT_SKIP_DESCEND_DIR_NAMES then
    let childDirPath := dirMatchPath (joinRel rel d)
    if !ign.isEmpty && matchesAny childDirPath ign then false
    else !inc.isEmpty &&
      (matchesAny childDirPath inc || includeMentionsDirName inc d)
  else true

/-- The descent filter of `scan_tree` (lines building `next_dirnames`):
always-ignored names are never descended into; a user-ignored directory is
skipped; a default-skip name is descended into only when explicitly
included; every other name is kept. -/
def descendKeep (inc ign : List GlobRx) (rel : String) (d : String) : Bool :=
  if d ∈ ALWAYS_IGNORE_DIR_NAMES then false
  else
    let childDirPath := dirMatchPath (joinRel rel d)
    if !ign.isEmpty && matchesAny childDirPath ign then false
    else if d ∈ DEFAULT_SKIP_DESCEND_DIR_NAMES then
      !inc.isEmpty && (matchesAny childDirPath inc || includeMentionsDirName inc d)
    else true

/-- The `DirNode` record built for one visited directory from its one-hop
file and subdirectory names (the body of the `os.walk` loop). -/
def mkDirNode (inc ign : List GlobRx) (rel : String)
    (files : List String) (dirnames : List String) : DirNode :=
  let oneHopDirs := sortStr (dirnames.filter (oneHopKeep inc ign rel))
  let nextNames := sortStr (dirnames.filter (descendKeep inc ign rel))
  { rel := rel
    depth := relDepth rel
    subdirs_one_hop := oneHopDirs.map (fun d => d ++ "/")
    files_one_hop := sortStr (files.filter (fun f => f != "AGENTS.md"))
    children := nextNames.map (joinRel rel) }

mutual
/-- A directory on disk: its immediate files and named subdirectories. -/
inductive FSDir : Type where
  | mk : List String → FSubs → FSDir
  deriving DecidableEq
/-- The named immediate subdirectories of a directory. -/
inductive FSubs : Type where
  | nil : FSubs
  | cons : String → FSDir → FSubs → FSubs
  deriving DecidableEq
end

/-- The names of the immediate subdirectories (`dirnames` of `os.walk`). -/
def subNames : FSubs → List String
  | .nil => []
  | .cons nm _ rest => nm :: subNames rest

/-- Select the walk of the subdirectory with a given name. -/
def lookupWalk (nm : String) : List (String × List (String × DirNode)) → List (String × DirNode)
  | [] => []
  | (n, w) :: rest => if n = nm then w else lookupWalk nm rest

mutual
/-- The `os.walk` traversal of `scan_tree`: emit the node for the current
directory, then the nodes of the subdirectories that survive the descent
filter, in sorted order (`dirnames[:] = next_dirnames` after sorting).

Totality note: the recursion computes the walk of every subdirectory and
then keeps only those selected by `descendKeep`; since the walk is a pure
function this equals the source's pruning before descent. -/
def walkDir (inc ign : List GlobRx) (rel : String) : FSDir → List (String × DirNode)
  | .mk files subdirs =>
    let node := mkDirNode inc ign rel files (subNames subdirs)
    let walked := walkSubsAll inc ign rel subdirs
    (rel, node) ::
      (sortStr ((subNames subdirs).filter (descendKeep inc ign rel))).flatMap
        (fun nm => lookupWalk nm walked)
/-- Walks of all immediate subdirectories, keyed by name. -/
def walkSubsAll (inc ign : List GlobRx) (rel : String) : FSubs → List (String × List (String × DirNode))
  | .nil => []
  | .cons nm d rest =>
    (nm, walkDir inc ign (joinRel rel nm) d) :: walkSubsAll inc ign rel rest
end

/-- `scan_tree`: the node map (as an association list in visit order) of the
subtree rooted at `root`.  The existence check on the root is not modelled:
an `FSDir` value is an existing directory. -/
def scan_tree (inc ign : List GlobRx) (root : FSDir) : List (String × DirNode) :=
  walkDir inc ign "." root

/-- A legal on-disk directory name: nonempty, not ".", no '/'. -/
def validNameB (s : String) : Bool :=
  s != "" && s != "." && !(s.toList.contains '/')

/-- No duplicate names. -/
def namesNodupB : List String → Bool
  | [] => true
  | n :: rest => !(rest.contains n) && namesNodupB rest

mutual
/-- A tree that a real filesystem can present to `os.walk`: distinct sibling
directory names, every directory name legal, recursively. -/
def validTreeB : FSDir → Bool
  | .mk _ subdirs => namesNodupB (subNames subdirs) && validSubsB subdirs
/-- Validity of a subdirectory list. -/
def validSubsB : FSubs → Bool
  | .nil => true
  | .cons nm d rest => validNameB nm && validTreeB d && validSubsB rest
end

/-! ## Directory classifier (`classify_dirs`) -/

/-- The `DirClass` dataclass. -/
structure DirClass : Type where
  meaningful : Bool
  kind : String
  in_scope : Bool
  deriving DecidableEq

/-- The classifier's three work dicts.  They are total functions carrying the
`.get(_, False)` default (and "leaf" for kinds), which coincides with the
source's dicts pre-initialized to `False`/"leaf" on every key. -/
structure CState : Type where
  in_scope : String → Bool
  meaningful : String → Bool
  kinds : String → String

/-- Dict assignment `m[k] = v`. -/
def updFn (f : String → α) (k : String) (v : α) : String → α :=
  fun r => if r = k then v else f r

/-- The local selected files of a node (the inner loop of `classify_dirs`):
keep a file unless it is ignored, or includes are configured and none
matches. -/
def selectedLocalFiles (inc ign : List GlobRx) (n : DirNode) : List String :=
  n.files_one_hop.filter (fun f =>
    let fp := fileMatchPath n.rel f
    !(!ign.isEmpty && matchesAny fp ign) && !(!inc.isEmpty && !matchesAny fp inc))

/-- One iteration of the bottom-up loop of `classify_dirs` for node `n`. -/
def classifyStep (inc ign : List GlobRx) (st : CState) (n : DirNode) : CState :=
  let dirPath := dirMatchPath n.rel
  let dirIgnored := if !ign.isEmpty then matchesAny dirPath ign else false
  let selected := selectedLocalFiles inc ign n
  let localSignal := !selected.isEmpty
  let childInScope := n.children.any st.in_scope
  let selfInclude :=
    if !inc.isEmpty then matchesAny dirPath inc || localSignal || childInScope
    else true
  let inScopeHere := selfInclude && !dirIgnored
  let hasMeaningfulChild :=
    n.children.any (fun ch => st.in_scope ch && st.meaningful ch)
  let isMeaningful := inScopeHere && (localSignal || hasMeaningfulChild)
  let kindHere :=
    if !isMeaningful then "leaf"
    else if hasMeaningfulChild then
      (if localSignal then "non-leaf" else "aggregator-only")
    else "leaf"
  { in_scope := updFn st.in_scope n.rel inScopeHere
    meaningful := updFn st.meaningful n.rel isMeaningful
    kinds := updFn st.kinds n.rel kindHere }

/-- The initial work dicts (everything `False`, kinds "leaf"). -/
def initCState : CState :=
  { in_scope := fun _ => false, meaningful := fun _ => false, kinds := fun _ => "leaf" }

/-- `sorted(nodes.values(), key=lambda n: n.depth, reverse=True)` — a stable
descending sort by depth. -/
def byDepthDesc (nodes : List DirNode) : List DirNode :=
  sortLe (fun a b => decide (b.depth ≤ a.depth)) nodes

/-- `classify_dirs`: bottom-up classification.  The input node map is the
list of its `DirNode` values (each carries its key `rel`); the result is the
association list keyed by `rel` in the iteration order of the source's
result dict. -/
def classify_dirs (inc ign : List GlobRx) (nodes : List DirNode) : List (String × DirClass) :=
  let byDepth := byDepthDesc nodes
  let final := byDepth.foldl (classifyStep inc ign) initCState
  byDepth.map (fun n =>
    (n.rel,
      { meaningful := final.meaningful n.rel
        kind := final.kinds n.rel
        in_scope := final.in_scope n.rel }))

/-- Lookup in a classification map with the `.get` defaults. -/
def classAt (out : List (String × DirClass)) (r : String) : DirClass :=
  match out.lookup r with
  | some c => c
  | none => { meaningful := false, kind := "leaf", in_scope := false }

/-! ## Change-set resolver (`_compute_update_dirs` in agents_plan.py) -/

/-- `d.relative_to(root)`: the remaining parts when `root` is a prefix of
`d`, else `none` (the `ValueError` caught by the `except`).  Absolute paths
are modelled as their segment lists. -/
def relPartsOf (root d : List String) : Option (List String) :=
  if root.isPrefixOf d then some (d.drop root.length) else none

/-- `"." if not rel.parts else rel.as_posix()`. -/
def relStrOfParts (parts : List String) : String :=
  if parts.isEmpty then "." else String.intercalate "/" parts

/-- The ancestor walk (the `while True` loop) starting at directory `d`:
record `d`'s relative path when it is among the scanned paths, stop at the
root or when `d` leaves the root, else continue with `d`'s parent.  `fuel`
only forces termination; `d.length + 1` is sufficient since each step drops
one segment. -/
def walkUpFuel (root scanned : List String) : Nat → List String → List String
  | 0, _ => []
  | fuel + 1, d =>
    match relPartsOf root d with
    | none => []
    | some parts =>
      let relStr := relStrOfParts parts
      let hits := if scanned.contains relStr then [relStr] else []
      if d = root then hits
      else hits ++ walkUpFuel root scanned fuel d.dropLast

/-- `_compute_update_dirs`: the union over changed files of the scanned
ancestors of each file's parent (the result set, as a list with possible
repetitions; all claims about it are membership statements). -/
def compute_update_dirs (root : List String) (changedFiles : List (List String))
    (scannedRels : List String) : List String :=
  changedFiles.flatMap (fun f =>
    walkUpFuel root scannedRels (f.dropLast.length + 1) f.dropLast)

/-! ## Derived notions used in the claim statements -/

/-- The last path segment of a relative path (the name a `children` entry
derives from). -/
def lastSeg (s : String) : String :=
  String.mk ((s.toList.reverse.takeWhile (fun c => c ≠ '/')).reverse)

/-- Strip the trailing '/' of a `subdirs_one_hop` entry (every such entry
ends with '/'). -/
def stripSlash (s : String) : String :=
  String.mk s.toList.dropLast

/-- Find the subdirectory with a given name. -/
def findSub (nm : String) : FSubs → Option FSDir
  | .nil => none
  | .cons n d rest => if n = nm then some d else findSub nm rest

mutual
/-- Size of a directory tree (for induction on the walk). -/
def dirSize : FSDir → Nat
  | .mk _ subs => 1 + subsSize subs
/-- Size of a subdirectory list. -/
def subsSize : FSubs → Nat
  | .nil => 0
  | .cons _ d rest => dirSize d + subsSize rest
end

/-- The node-map values handed from `scan_tree` to `classify_dirs`
(`nodes.values()`; each value carries its key in its `rel` field). -/
def scanNodes (inc ign : List GlobRx) (root : FSDir) : List DirNode :=
  (scan_tree inc ign root).map Prod.snd

/-- Well-formedness of a node map, as every scanned map satisfies it:
distinct keys, and every child listed in a node's `children` that is
present in the map is strictly deeper than its parent. -/
def WFNodes (nodes : List DirNode) : Prop :=
  (nodes.map DirNode.rel).Nodup ∧
    ∀ n ∈ nodes, ∀ c ∈ n.children, ∀ m ∈ nodes, m.rel = c → n.depth < m.depth

/-- Example tree for the default-skip scenario: the root holds one file and
one dependency-style subdirectory. -/
def c1Tree : FSDir :=
  .mk ["root.txt"] (.cons "node_modules" (.mk ["lib.js"] .nil) .nil)

/-- An include list compiled from the single pattern "node_modules/**". -/
def c4Inc : List GlobRx :=
  (globToRegex "node_modules/**").elim [] (fun g => [g])

/-- Subdirectories of the example tree below. -/
def c5Subs : FSubs :=
  .cons "docs" (.mk ["guide.md"] (.cons "sub" (.mk [] .nil) .nil))
    (.cons "node_modules" (.mk ["lib.js"] .nil) .nil)

/-- Example tree with a content directory and a dependency directory. -/
def c5Tree : FSDir := .mk [] c5Subs

/-- Example node: a root with one subdirectory and no files. -/
def exRoot : DirNode :=
  { rel := ".", depth := 0, subdirs_one_hop := ["docs/"], files_one_hop := [],
    children := ["docs"] }

/-- Example node: a documentation directory holding one file. -/
def exDocs : DirNode :=
  { rel := "docs", depth := 1, subdirs_one_hop := [], files_one_hop := ["guide.md"],
    children := [] }

/-- Example node map: a root aggregating one documentation directory. -/
def exNodes : List DirNode := [exRoot, exDocs]

/-! ## List helper lemmas -/

theorem mem_insertLe {le : α → α → Bool} {a x : α} :
    ∀ {l : List α}, x ∈ insertLe le a l ↔ x = a ∨ x ∈ l := by
  intro l
  induction l with
  | nil => simp [insertLe]
  | cons b bs ih =>
    by_cases h : le a b = true
    · simp [insertLe, h]
    · simp only [insertLe, h, Bool.false_eq_true, if_false, List.mem_cons, ih]
      tauto

theorem mem_sortLe {le : α → α → Bool} {x : α} :
    ∀ {l : List α}, x ∈ sortLe le l ↔ x ∈ l := by
  intro l
  induction l with
  | nil => simp [sortLe]
  | cons b bs ih => simp [sortLe, mem_insertLe, ih]

theorem perm_insertLe (le : α → α → Bool) (a : α) :
    ∀ (l : List α), List.Perm (insertLe le a l) (a :: l) := by
  intro l
  induction l with
  | nil => simp [insertLe]
  | cons b bs ih =>
    by_cases h : le a b = true
    · simp [insertLe, h]
    · simp only [insertLe, h, Bool.false_eq_true, if_false]
      exact (ih.cons b).trans (List.Perm.swap a b bs)

theorem perm_sortLe (le : α → α → Bool) :
    ∀ (l : List α), List.Perm (sortLe le l) l := by
  intro l
  induction l with
  | nil => exact List.Perm.refl _
  | cons b bs ih => exact (perm_insertLe le b (sortLe le bs)).trans (ih.cons b)

theorem pairwise_insertLe {le : α → α → Bool} (a : α)
    (tot : ∀ x y : α, le x y = false → le y x = true)
    (tr : ∀ x y z : α, le x y = true → le y z = true → le x z = true) :
    ∀ {l : List α}, l.Pairwise (fun x y => le x y = true) →
      (insertLe le a l).Pairwise (fun x y => le x y = true) := by
  intro l
  induction l with
  | nil => simp [insertLe]
  | cons b bs ih =>
    intro hp
    rcases List.pairwise_cons.mp hp with ⟨hb, hbs⟩
    by_cases h : le a b = true
    · simp only [insertLe, h, if_true]
      refine List.pairwise_cons.mpr ⟨?_, hp⟩
      intro y hy
      rcases List.mem_cons.mp hy with rfl | hy
      · exact h
      · exact tr a b y h (hb y hy)
    · simp only [insertLe, h, Bool.false_eq_true, if_false]
      refine List.pairwise_cons.mpr ⟨?_, ih hbs⟩
      intro y hy
      rcases mem_insertLe.mp hy with heq | hy
      · rw [heq]
        exact tot a b (by simpa using h)
      · exact hb y hy

theorem pairwise_sortLe {le : α → α → Bool}
    (tot : ∀ x y : α, le x y = false → le y x = true)
    (tr : ∀ x y z : α, le x y = true → le y z = true → le x z = true) :
    ∀ (l : List α), (sortLe le l).Pairwise (fun x y => le x y = true) := by
  intro l
  induction l with
  | nil => simp [sortLe]
  | cons b bs ih => exact pairwise_insertLe b tot tr ih

theorem mem_sortStr {x : String} {l : List String} : x ∈ sortStr l ↔ x ∈ l :=
  mem_sortLe

/-! ## C6 and C7: glob compiler claims -/

/-- C6: the compiled matcher for "a/\*\*/c" accepts "a/b/c"; so does the one
for "a/\*/c"; the one for "a/\*" rejects "a/b/c" — a single-segment wildcard
does not cross '/', and matching is anchored at both ends. -/
theorem C6_glob_anchoring :
    (globToRegex "a/**/c").map (fun g => globMatches g "a/b/c") = some true ∧
    (globToRegex "a/*/c").map (fun g => globMatches g "a/b/c") = some true ∧
    (globToRegex "a/*").map (fun g => globMatches g "a/b/c") = some false := by
  decide

/-- C7 counterexample: glob compilation can raise.  The pattern "[]" has a
closing bracket, so the malformed-class fallback does not trigger; the
emitted regex is "^[]$", whose empty character class Python's `re.compile`
rejects ("unterminated character set") — modelled by `globToRegex`
returning `none`.  This refutes the claim that compilation never raises for
any input pattern. -/
theorem C7_counterexample : globToRegex "[]" = none := by decide

/-- There is no ']' in `cs` iff the class scan fails to find a close. -/
theorem scanToClose_eq_none {cs : List Char} (h : ']' ∉ cs) :
    scanToClose cs = none := by
  induction cs with
  | nil => rfl
  | cons c rest ih =>
    have hc : ¬ c = ']' := fun hh => h (hh ▸ List.mem_cons_self c rest)
    have hr : ']' ∉ rest := fun hh => h (List.mem_cons_of_mem _ hh)
    simp [scanToClose, hc, ih hr]

/-- C7 amended: an empty pattern compiles to a matcher that matches nothing,
and an unclosed '[' (no closing bracket anywhere after it) degrades to a
literal '[' while the rest of the pattern is still compiled; compilation
can, however, fail for a pattern containing a closed character class whose
body is invalid as a regex class, such as "[]". -/
theorem C7_amended_glob_degrade :
    (∀ path : String, (globToRegex "").map (fun g => globMatches g path) = some false) ∧
    (∀ (fuel : Nat) (cs : List Char), ']' ∉ cs →
      globTransFuel (fuel + 1) ('[' :: cs) =
        (globTransFuel fuel cs).map (List.cons (.lit '[', reEscape '['))) ∧
    globToRegex "[]" = none := by
  refine ⟨fun path => rfl, ?_, by decide⟩
  intro fuel cs h
  have h1 : scanClassBody cs = none := by
    cases cs with
    | nil => rfl
    | cons c rest =>
      have hr : ']' ∉ rest := fun hh => h (List.mem_cons_of_mem _ hh)
      by_cases hc : c = '!' ∨ c = '^'
      · simp [scanClassBody, hc, scanToClose_eq_none hr]
      · simp [scanClassBody, hc, scanToClose_eq_none h]
  simp [globTransFuel, h1]

/-- C7 witness: the amended degradation applied to the concrete unclosed
pattern tail "ab". -/
theorem C7_witness :
    ((']' : Char) ∉ ['a', 'b']) ∧
      globTransFuel 3 ['[', 'a', 'b'] =
        (globTransFuel 2 ['a', 'b']).map (List.cons (.lit '[', reEscape '[')) :=
  ⟨by decide, C7_amended_glob_degrade.2.1 2 ['a', 'b'] (by decide)⟩

/-! ## C1: default-skip handling with no includes -/

/-- C1 counterexample: scanning `c1Tree` (whose root holds the default-skip
subdirectory "node_modules") with no include patterns produces a root node
whose `subdirs_one_hop` is empty — the default-skip directory is omitted
from the one-hop ledger too, refuting the claim that it still appears in
the parent's `oneHopSubdirs`. -/
theorem C1_counterexample :
    "node_modules" ∈ DEFAULT_SKIP_DESCEND_DIR_NAMES ∧
    scan_tree [] [] c1Tree =
      [(".", { rel := ".", depth := 0, subdirs_one_hop := [],
               files_one_hop := ["root.txt"], children := [] })] := by
  decide

/-! ## Path and name lemmas -/

theorem strEq_of_data {a b : String} (h : a.data = b.data) : a = b := by
  cases a; cases b; exact congrArg String.mk h

theorem validNameB_spec {s : String} (h : validNameB s = true) :
    s ≠ "" ∧ s ≠ "." ∧ '/' ∉ s.data := by
  simp only [validNameB, Bool.and_eq_true, bne_iff_ne, ne_eq, Bool.not_eq_true] at h
  refine ⟨h.1.1, h.1.2, ?_⟩
  have := h.2
  simpa [String.toList, List.contains] using this

theorem joinRel_data {rel nm : String} (h : rel ≠ ".") :
    (joinRel rel nm).data = rel.data ++ '/' :: nm.data := by
  simp [joinRel, h, String.data_append]

theorem joinRel_dot (nm : String) : joinRel "." nm = nm := rfl

theorem joinRel_ne_dot {rel nm : String} (h : validNameB nm = true) :
    joinRel rel nm ≠ "." := by
  rcases validNameB_spec h with ⟨-, hdot, hsl⟩
  by_cases hr : rel = "."
  · subst hr; simpa [joinRel] using hdot
  · intro he
    have hd := congrArg String.data he
    rw [joinRel_data hr] at hd
    have : '/' ∈ (("." : String)).data := by
      rw [← hd]; simp
    simp at this

theorem joinRel_inj {rel a b : String} (h : joinRel rel a = joinRel rel b) : a = b := by
  by_cases hr : rel = "."
  · subst hr; simpa [joinRel] using h
  · have hd := congrArg String.data h
    rw [joinRel_data hr, joinRel_data hr] at hd
    have := List.append_cancel_left hd
    exact strEq_of_data (by simpa using this)

theorem relDepth_name {nm : String} (h : validNameB nm = true) : relDepth nm = 1 := by
  rcases validNameB_spec h with ⟨-, hdot, hsl⟩
  unfold relDepth
  rw [if_neg hdot]
  have hc : nm.toList.count '/' = 0 := List.count_eq_zero.mpr hsl
  omega

theorem relDepth_joinRel {rel nm : String} (h : validNameB nm = true) :
    relDepth (joinRel rel nm) = relDepth rel + 1 := by
  rcases validNameB_spec h with ⟨-, hdot, hsl⟩
  by_cases hr : rel = "."
  · subst hr
    rw [joinRel_dot, relDepth_name h]
    rfl
  · have hd : (joinRel rel nm).data = rel.data ++ '/' :: nm.data := joinRel_data hr
    have hne : joinRel rel nm ≠ "." := joinRel_ne_dot h
    simp only [relDepth, hne, if_false, hr, String.toList, hd]
    rw [List.count_append, List.count_cons_self, List.count_eq_zero.mpr hsl]

theorem takeWhile_append_all {p : α → Bool} {l1 l2 : List α}
    (h : ∀ a ∈ l1, p a = true) :
    (l1 ++ l2).takeWhile p = l1 ++ l2.takeWhile p := by
  induction l1 with
  | nil => rfl
  | cons c r ih =>
    simp [List.takeWhile_cons, h c (by simp),
      ih (fun a ha => h a (by simp [ha]))]

theorem lastSeg_joinRel {rel nm : String} (h : validNameB nm = true) :
    lastSeg (joinRel rel nm) = nm := by
  rcases validNameB_spec h with ⟨-, hdot, hsl⟩
  have hrev : ∀ a ∈ nm.data.reverse, (fun c => decide (c ≠ '/')) a = true := by
    intro a ha
    have : a ∈ nm.data := List.mem_reverse.mp ha
    simp only [decide_eq_true_eq]
    intro he; subst he; exact hsl this
  by_cases hr : rel = "."
  · subst hr
    rw [joinRel_dot]
    apply strEq_of_data
    simp only [lastSeg, String.toList]
    rw [List.takeWhile_eq_self_iff.mpr hrev]
    simp
  · apply strEq_of_data
    simp only [lastSeg, String.toList, joinRel_data hr]
    rw [List.reverse_append, List.reverse_cons]
    rw [List.append_assoc, takeWhile_append_all hrev]
    simp [List.takeWhile_cons]

theorem stripSlash_concat (s : String) : stripSlash (s ++ "/") = s := by
  apply strEq_of_data
  simp [stripSlash, String.toList, String.data_append]

/-! ## Walk structure lemmas -/

theorem subNames_valid : ∀ (s : FSubs), validSubsB s = true →
    ∀ nm ∈ subNames s, validNameB nm = true
  | .nil => by intro _ nm hnm; simp [subNames] at hnm
  | .cons n d rest => by
    intro hv nm hnm
    simp only [validSubsB, Bool.and_eq_true] at hv
    rcases List.mem_cons.mp hnm with rfl | hnm
    · exact hv.1.1
    · exact subNames_valid rest hv.2 nm hnm

theorem findSub_valid {nm : String} : ∀ (s : FSubs) {d : FSDir},
    validSubsB s = true → findSub nm s = some d →
    validTreeB d = true ∧ validNameB nm = true
  | .nil => by intro _ h; simp [findSub] at h
  | .cons n d0 rest => by
    intro hv h
    simp only [validSubsB, Bool.and_eq_true] at hv
    by_cases he : n = nm
    · subst he
      simp only [findSub, if_true] at h
      cases h
      exact ⟨hv.1.2, hv.1.1⟩
    · simp only [findSub, he, if_false] at h
      exact findSub_valid rest hv.2 h

theorem findSub_size {nm : String} : ∀ (s : FSubs) {d : FSDir},
    findSub nm s = some d → dirSize d ≤ subsSize s
  | .nil => by intro h; simp [findSub] at h
  | .cons n d0 rest => by
    intro h
    by_cases he : n = nm
    · subst he
      simp only [findSub, if_true] at h
      cases h
      simp [subsSize]
    · simp only [findSub, he, if_false] at h
      have := findSub_size rest h
      simp [subsSize]
      omega

theorem lookupWalk_walkSubsAll (inc ign : List GlobRx) (rel nm : String) :
    ∀ (s : FSubs), lookupWalk nm (walkSubsAll inc ign rel s) =
      (findSub nm s).elim [] (walkDir inc ign (joinRel rel nm))
  | .nil => rfl
  | .cons n d rest => by
    by_cases he : n = nm
    · subst he
      simp [walkSubsAll, lookupWalk, findSub]
    · simp [walkSubsAll, lookupWalk, findSub, he,
        lookupWalk_walkSubsAll inc ign rel nm rest]

theorem walkDir_cons (inc ign : List GlobRx) (rel : String)
    (files : List String) (s : FSubs) :
    walkDir inc ign rel (.mk files s) =
      (rel, mkDirNode inc ign rel files (subNames s)) ::
        (sortStr ((subNames s).filter (descendKeep inc ign rel))).flatMap
          (fun nm => lookupWalk nm (walkSubsAll inc ign rel s)) := rfl

theorem mem_walkDir_cases {inc ign : List GlobRx} {rel : String}
    {files : List String} {s : FSubs} {e : String × DirNode}
    (he : e ∈ walkDir inc ign rel (.mk files s)) :
    e = (rel, mkDirNode inc ign rel files (subNames s)) ∨
      ∃ nm d, findSub nm s = some d ∧ nm ∈ subNames s ∧
        descendKeep inc ign rel nm = true ∧
        e ∈ walkDir inc ign (joinRel rel nm) d := by
  rw [walkDir_cons] at he
  rcases List.mem_cons.mp he with h | h
  · exact Or.inl h
  · right
    rcases List.mem_flatMap.mp h with ⟨nm, hnm, hew⟩
    have hnm' := mem_sortStr.mp hnm
    rcases List.mem_filter.mp hnm' with ⟨hmem, hkeep⟩
    rw [lookupWalk_walkSubsAll] at hew
    cases hfind : findSub nm s with
    | none => rw [hfind] at hew; simp at hew
    | some d =>
      rw [hfind] at hew
      exact ⟨nm, d, hfind, hmem, hkeep, hew⟩

theorem walk_entries_struct (inc ign : List GlobRx) :
    ∀ (N : Nat) (d : FSDir) (rel : String), dirSize d ≤ N → validTreeB d = true →
      ∀ e ∈ walkDir inc ign rel d,
        (∃ files s, e.2 = mkDirNode inc ign e.1 files (subNames s) ∧
          validTreeB (FSDir.mk files s) = true) ∧
        (e.1 = rel ∨ relDepth rel < relDepth e.1) := by
  intro N
  induction N with
  | zero =>
    intro d rel hsz
    cases d with
    | mk files s => simp [dirSize] at hsz
  | succ N ih =>
    intro d rel hsz hv e he
    cases d with
    | mk files s =>
      rcases mem_walkDir_cases he with h | ⟨nm, d', hfind, hmem, hkeep, hew⟩
      · subst h
        exact ⟨⟨files, s, rfl, hv⟩, Or.inl rfl⟩
      · have hvs : validSubsB s = true := by
          simp only [validTreeB, Bool.and_eq_true] at hv
          exact hv.2
        rcases findSub_valid _ hvs hfind with ⟨hvd, hvnm⟩
        have hsz' : dirSize d' ≤ N := by
          have h1 := findSub_size _ hfind
          simp only [dirSize] at hsz
          omega
        rcases ih d' (joinRel rel nm) hsz' hvd e hew with ⟨hstruct, hdep⟩
        refine ⟨hstruct, ?_⟩
        right
        rcases hdep with h | h
        · rw [h, relDepth_joinRel hvnm]; omega
        · rw [relDepth_joinRel hvnm] at h; omega

/-! ## C1 amended, C4, C5 -/

theorem matchesAny_nil (p : String) : matchesAny p [] = false := rfl

theorem skip_not_always {nm : String} (h : nm ∈ DEFAULT_SKIP_DESCEND_DIR_NAMES) :
    nm ∉ ALWAYS_IGNORE_DIR_NAMES := by
  simp only [DEFAULT_SKIP_DESCEND_DIR_NAMES, List.mem_cons, List.not_mem_nil, or_false] at h
  rcases h with rfl | rfl | rfl <;> decide

theorem skip_valid_name {nm : String} (h : nm ∈ DEFAULT_SKIP_DESCEND_DIR_NAMES) :
    validNameB nm = true := by
  simp only [DEFAULT_SKIP_DESCEND_DIR_NAMES, List.mem_cons, List.not_mem_nil, or_false] at h
  rcases h with rfl | rfl | rfl <;> decide

theorem oneHopKeep_skip_no_inc {ign : List GlobRx} {rel nm : String}
    (hskip : nm ∈ DEFAULT_SKIP_DESCEND_DIR_NAMES) :
    oneHopKeep [] ign rel nm = false := by
  have hal := skip_not_always hskip
  simp only [oneHopKeep, hal, if_false, hskip, if_true]
  split <;> simp

theorem descendKeep_skip_no_inc {ign : List GlobRx} {rel nm : String}
    (hskip : nm ∈ DEFAULT_SKIP_DESCEND_DIR_NAMES) :
    descendKeep [] ign rel nm = false := by
  have hal := skip_not_always hskip
  simp only [descendKeep, hal, if_false, hskip, if_true]
  split <;> simp

/-- C1 (amended): with no include patterns configured, a default-skip
subdirectory of the root is omitted from the root's `subdirs_one_hop` and
`children`, and the node map contains no visited entry for it. -/
theorem C1_amended_default_skip_fully_omitted (ign : List GlobRx)
    (files : List String) (s : FSubs) (nm : String)
    (hv : validTreeB (.mk files s) = true)
    (hskip : nm ∈ DEFAULT_SKIP_DESCEND_DIR_NAMES)
    (hmem : nm ∈ subNames s) :
    (scan_tree [] ign (.mk files s)).head? =
      some (".", mkDirNode [] ign "." files (subNames s)) ∧
    (nm ++ "/") ∉ (mkDirNode [] ign "." files (subNames s)).subdirs_one_hop ∧
    nm ∉ (mkDirNode [] ign "." files (subNames s)).children ∧
    ∀ e ∈ scan_tree [] ign (.mk files s), e.1 ≠ nm := by
  have hvn := skip_valid_name hskip
  refine ⟨rfl, ?_, ?_, ?_⟩
  · intro hcon
    simp only [mkDirNode, List.mem_map] at hcon
    rcases hcon with ⟨x, hx, hxe⟩
    have hx' : x = nm := by
      have := congrArg String.data hxe
      simp only [String.data_append] at this
      exact strEq_of_data (List.append_cancel_right this)
    subst hx'
    rcases List.mem_filter.mp (mem_sortStr.mp hx) with ⟨-, hk⟩
    rw [oneHopKeep_skip_no_inc hskip] at hk
    cases hk
  · intro hcon
    simp only [mkDirNode, List.mem_map] at hcon
    rcases hcon with ⟨x, hx, hxe⟩
    have hx' : x = nm := by simpa [joinRel_dot] using hxe
    subst hx'
    rcases List.mem_filter.mp (mem_sortStr.mp hx) with ⟨-, hk⟩
    rw [descendKeep_skip_no_inc hskip] at hk
    cases hk
  · intro e he
    rcases mem_walkDir_cases he with h | ⟨nm', d', hfind, hmem', hkeep, hew⟩
    · subst h
      intro hcon
      rcases validNameB_spec hvn with ⟨-, hdot, -⟩
      exact hdot hcon.symm
    · have hnm' : nm' ≠ nm := by
        intro hcon; subst hcon
        rw [descendKeep_skip_no_inc hskip] at hkeep
        cases hkeep
      have hvs : validSubsB s = true := by
        simp only [validTreeB, Bool.and_eq_true] at hv
        exact hv.2
      rcases findSub_valid _ hvs hfind with ⟨hvd, hvnm'⟩
      rcases (walk_entries_struct [] ign (dirSize d') d' (joinRel "." nm')
          le_rfl hvd e hew).2 with h | h
      · rw [h, joinRel_dot]; exact hnm'
      · rw [joinRel_dot, relDepth_name hvnm'] at h
        intro hcon
        rw [hcon, relDepth_name hvn] at h
        omega

/-- C1 witness: the amended statement at the concrete tree `c1Tree`. -/
theorem C1_witness :
    (validTreeB (.mk ["root.txt"] (.cons "node_modules" (.mk ["lib.js"] .nil) .nil)) = true) ∧
    ("node_modules" ∈ DEFAULT_SKIP_DESCEND_DIR_NAMES) ∧
    ((scan_tree [] [] (.mk ["root.txt"] (.cons "node_modules" (.mk ["lib.js"] .nil) .nil))).head? =
        some (".", mkDirNode [] [] "." ["root.txt"]
          (subNames (.cons "node_modules" (.mk ["lib.js"] .nil) .nil))) ∧
      ("node_modules" ++ "/") ∉ (mkDirNode [] [] "." ["root.txt"]
          (subNames (.cons "node_modules" (.mk ["lib.js"] .nil) .nil))).subdirs_one_hop ∧
      "node_modules" ∉ (mkDirNode [] [] "." ["root.txt"]
          (subNames (.cons "node_modules" (.mk ["lib.js"] .nil) .nil))).children ∧
      ∀ e ∈ scan_tree [] [] (.mk ["root.txt"] (.cons "node_modules" (.mk ["lib.js"] .nil) .nil)),
        e.1 ≠ "node_modules") :=
  ⟨by decide, by decide,
    C1_amended_default_skip_fully_omitted [] ["root.txt"]
      (.cons "node_modules" (.mk ["lib.js"] .nil) .nil) "node_modules"
      (by decide) (by decide) (by decide)⟩

theorem guard_matches_false {p : String} {gs : List GlobRx}
    (h : (!gs.isEmpty && matchesAny p gs) = false) : matchesAny p gs = false := by
  cases gs with
  | nil => rfl
  | cons g rest => simpa using h

theorem descendKeep_skip_iff {inc ign : List GlobRx} {rel nm : String}
    (hskip : nm ∈ DEFAULT_SKIP_DESCEND_DIR_NAMES) :
    descendKeep inc ign rel nm = true ↔
      (matchesAny (dirMatchPath (joinRel rel nm)) ign = false ∧ inc ≠ [] ∧
        (matchesAny (dirMatchPath (joinRel rel nm)) inc = true ∨
         includeMentionsDirName inc nm = true)) := by
  have hal := skip_not_always hskip
  simp only [descendKeep, hal, if_false, hskip, if_true]
  by_cases hig : (!ign.isEmpty && matchesAny (dirMatchPath (joinRel rel nm)) ign) = true
  · rw [if_pos hig]
    simp only [Bool.and_eq_true, Bool.not_eq_true', List.isEmpty_eq_false] at hig
    constructor
    · intro h; cases h
    · intro h; rw [hig.2] at h; cases h.1
  · rw [if_neg hig]
    have hig' : (!ign.isEmpty && matchesAny (dirMatchPath (joinRel rel nm)) ign) = false := by
      simpa using hig
    have hm := guard_matches_false hig' 
    simp only [Bool.and_eq_true, Bool.or_eq_true, Bool.not_eq_true',
      List.isEmpty_eq_false]
    constructor
    · intro h
      exact ⟨hm, h.1, h.2⟩
    · intro h
      exact ⟨h.2.1, h.2.2⟩

/-- C4: a default-skip immediate subdirectory ends up in its parent's
`children` iff no ignore pattern matches its directory path, the include
list is non-empty, and some include pattern matches its directory path or
textually mentions the directory name (the `_include_mentions_dir_name`
substring heuristic against the compiled pattern text). -/
theorem C4_default_skip_children_iff (inc ign : List GlobRx) (rel : String)
    (files : List String) (s : FSubs) (nm : String)
    (hskip : nm ∈ DEFAULT_SKIP_DESCEND_DIR_NAMES) (hmem : nm ∈ subNames s) :
    ((walkDir inc ign rel (.mk files s)).head? =
        some (rel, mkDirNode inc ign rel files (subNames s))) ∧
    (joinRel rel nm ∈ (mkDirNode inc ign rel files (subNames s)).children ↔
      (matchesAny (dirMatchPath (joinRel rel nm)) ign = false ∧ inc ≠ [] ∧
        (matchesAny (dirMatchPath (joinRel rel nm)) inc = true ∨
          includeMentionsDirName inc nm = true))) := by
  refine ⟨rfl, ?_⟩
  rw [← descendKeep_skip_iff hskip]
  constructor
  · intro hmemc
    simp only [mkDirNode, List.mem_map] at hmemc
    rcases hmemc with ⟨x, hx, hxe⟩
    have hx' : x = nm := joinRel_inj hxe
    subst hx'
    exact (List.mem_filter.mp (mem_sortStr.mp hx)).2
  · intro hk
    simp only [mkDirNode, List.mem_map]
    exact ⟨nm, mem_sortStr.mpr (List.mem_filter.mpr ⟨hmem, hk⟩), rfl⟩

/-- C4 witness: for the include list compiled from "node_modules/\*\*" and no
ignore patterns, "node_modules" is included in the root's children. -/
theorem C4_witness :
    ("node_modules" ∈ DEFAULT_SKIP_DESCEND_DIR_NAMES) ∧
    ("node_modules" ∈ subNames (.cons "node_modules" (.mk ["lib.js"] .nil) .nil)) ∧
    (((walkDir c4Inc [] "." (.mk [] (.cons "node_modules" (.mk ["lib.js"] .nil) .nil))).head? =
        some (".", mkDirNode c4Inc [] "." []
          (subNames (.cons "node_modules" (.mk ["lib.js"] .nil) .nil)))) ∧
      (joinRel "." "node_modules" ∈ (mkDirNode c4Inc [] "." []
          (subNames (.cons "node_modules" (.mk ["lib.js"] .nil) .nil))).children ↔
        (matchesAny (dirMatchPath (joinRel "." "node_modules")) [] = false ∧ c4Inc ≠ [] ∧
          (matchesAny (dirMatchPath (joinRel "." "node_modules")) c4Inc = true ∨
            includeMentionsDirName c4Inc "node_modules" = true)))) :=
  ⟨by decide, by decide,
    C4_default_skip_children_iff c4Inc [] "." []
      (.cons "node_modules" (.mk ["lib.js"] .nil) .nil) "node_modules"
      (by decide) (by decide)⟩

theorem descendKeep_imp_oneHopKeep {inc ign : List GlobRx} {rel nm : String}
    (h : descendKeep inc ign rel nm = true) : oneHopKeep inc ign rel nm = true := by
  by_cases hal : nm ∈ ALWAYS_IGNORE_DIR_NAMES
  · simp [descendKeep, hal] at h
  · by_cases hskip : nm ∈ DEFAULT_SKIP_DESCEND_DIR_NAMES
    · simp only [descendKeep, hal, if_false, hskip, if_true] at h
      simp only [oneHopKeep, hal, if_false, hskip, if_true]
      exact h
    · simp [oneHopKeep, hal, hskip]

/-- C5: in every scanned node, the name derived from each `children` entry
(its last path segment) appears among the node's `subdirs_one_hop` names
with the trailing '/' stripped. -/
theorem C5_children_subset_one_hop (inc ign : List GlobRx) (t : FSDir)
    (hv : validTreeB t = true) (e : String × DirNode)
    (he : e ∈ scan_tree inc ign t) (c : String) (hc : c ∈ e.2.children) :
    lastSeg c ∈ e.2.subdirs_one_hop.map stripSlash := by
  rcases (walk_entries_struct inc ign (dirSize t) t "." le_rfl hv e he).1 with
    ⟨files, s, hnode, hvd⟩
  rw [hnode] at hc ⊢
  simp only [mkDirNode, List.mem_map] at hc
  rcases hc with ⟨x, hx, hxe⟩
  rcases List.mem_filter.mp (mem_sortStr.mp hx) with ⟨hxmem, hxkeep⟩
  have hvs : validSubsB s = true := by
    simp only [validTreeB, Bool.and_eq_true] at hvd
    exact hvd.2
  have hvx : validNameB x = true := subNames_valid s hvs x hxmem
  rw [← hxe, lastSeg_joinRel hvx]
  simp only [mkDirNode, List.mem_map]
  refine ⟨x ++ "/", ⟨x, mem_sortStr.mpr (List.mem_filter.mpr
    ⟨hxmem, descendKeep_imp_oneHopKeep hxkeep⟩), rfl⟩, stripSlash_concat x⟩

/-- C5 witness: the subset property at the root entry of the concrete tree
`c5Tree` and its child "docs". -/
theorem C5_witness :
    (validTreeB c5Tree = true) ∧
    ((".", mkDirNode [] [] "." [] (subNames c5Subs)) ∈ scan_tree [] [] c5Tree) ∧
    ("docs" ∈ (mkDirNode [] [] "." [] (subNames c5Subs)).children) ∧
    lastSeg "docs" ∈ (mkDirNode [] [] "." [] (subNames c5Subs)).subdirs_one_hop.map stripSlash :=
  ⟨by decide, by decide, by decide,
    C5_children_subset_one_hop [] [] c5Tree (by decide)
      (".", mkDirNode [] [] "." [] (subNames c5Subs)) (by decide) "docs" (by decide)⟩

/-! ## Classifier lemmas -/

theorem updFn_self {α} (f : String → α) (k : String) (v : α) : updFn f k v k = v := by
  simp [updFn]

theorem updFn_ne {α} (f : String → α) {k r : String} (v : α) (h : r ≠ k) :
    updFn f k v r = f r := by
  simp [updFn, h]

theorem any_congr_mem {l : List α} {f g : α → Bool}
    (h : ∀ a ∈ l, f a = g a) : l.any f = l.any g := by
  induction l with
  | nil => rfl
  | cons a tail ih =>
    simp only [List.any_cons, h a (List.mem_cons_self a tail),
      ih (fun b hb => h b (List.mem_cons_of_mem _ hb))]

theorem classifyStep_at_self (inc ign : List GlobRx) (st : CState) (n : DirNode) :
    (classifyStep inc ign st n).in_scope n.rel =
      ((if !inc.isEmpty then
          matchesAny (dirMatchPath n.rel) inc ||
            !(selectedLocalFiles inc ign n).isEmpty || n.children.any st.in_scope
        else true) &&
        !(if !ign.isEmpty then matchesAny (dirMatchPath n.rel) ign else false)) ∧
    (classifyStep inc ign st n).meaningful n.rel =
      ((classifyStep inc ign st n).in_scope n.rel &&
        (!(selectedLocalFiles inc ign n).isEmpty ||
          n.children.any (fun ch => st.in_scope ch && st.meaningful ch))) ∧
    (classifyStep inc ign st n).kinds n.rel =
      (if !(classifyStep inc ign st n).meaningful n.rel then "leaf"
       else if n.children.any (fun ch => st.in_scope ch && st.meaningful ch) then
         (if !(selectedLocalFiles inc ign n).isEmpty then "non-leaf"
          else "aggregator-only")
       else "leaf") := by
  refine ⟨?_, ?_, ?_⟩ <;> simp [classifyStep, updFn]

theorem classifyStep_frame (inc ign : List GlobRx) (st : CState) (n : DirNode)
    {r : String} (h : r ≠ n.rel) :
    (classifyStep inc ign st n).in_scope r = st.in_scope r ∧
    (classifyStep inc ign st n).meaningful r = st.meaningful r ∧
    (classifyStep inc ign st n).kinds r = st.kinds r := by
  refine ⟨?_, ?_, ?_⟩ <;> exact updFn_ne _ _ h

theorem foldl_classify_frame (inc ign : List GlobRx) {r : String} :
    ∀ (l : List DirNode) (st : CState), (∀ n ∈ l, n.rel ≠ r) →
      (l.foldl (classifyStep inc ign) st).in_scope r = st.in_scope r ∧
      (l.foldl (classifyStep inc ign) st).meaningful r = st.meaningful r ∧
      (l.foldl (classifyStep inc ign) st).kinds r = st.kinds r := by
  intro l
  induction l with
  | nil => intro st _; exact ⟨rfl, rfl, rfl⟩
  | cons n tail ih =>
    intro st h
    have hn : r ≠ n.rel := fun he => h n (List.mem_cons_self n tail) he.symm
    have hstep := classifyStep_frame inc ign st n hn
    have htail := ih (classifyStep inc ign st n)
      (fun m hm => h m (List.mem_cons_of_mem _ hm))
    simp only [List.foldl_cons]
    exact ⟨htail.1.trans hstep.1, htail.2.1.trans hstep.2.1, htail.2.2.trans hstep.2.2⟩

theorem classAt_map_rel (f : String → DirClass) :
    ∀ (l : List DirNode) (r : String),
      classAt (l.map (fun m => (m.rel, f m.rel))) r =
        if r ∈ l.map DirNode.rel then f r
        else { meaningful := false, kind := "leaf", in_scope := false } := by
  intro l
  induction l with
  | nil => intro r; simp [classAt]
  | cons m tail ih =>
    intro r
    by_cases he : r = m.rel
    · subst he
      simp [classAt, List.lookup]
    · have hbeq : (r == m.rel) = false := by simpa using he
      simp only [classAt, List.map_cons, List.lookup, hbeq] at ih ⊢
      rw [ih r]
      simp [Ne.symm he, he]

theorem classAt_classify (inc ign : List GlobRx) (nodes : List DirNode) (r : String) :
    classAt (classify_dirs inc ign nodes) r =
      { meaningful := ((byDepthDesc nodes).foldl (classifyStep inc ign) initCState).meaningful r
        kind := ((byDepthDesc nodes).foldl (classifyStep inc ign) initCState).kinds r
        in_scope := ((byDepthDesc nodes).foldl (classifyStep inc ign) initCState).in_scope r } := by
  have h := classAt_map_rel (fun r' =>
    { meaningful := ((byDepthDesc nodes).foldl (classifyStep inc ign) initCState).meaningful r'
      kind := ((byDepthDesc nodes).foldl (classifyStep inc ign) initCState).kinds r'
      in_scope := ((byDepthDesc nodes).foldl (classifyStep inc ign) initCState).in_scope r' })
    (byDepthDesc nodes) r
  have hdef : classAt (classify_dirs inc ign nodes) r =
      classAt ((byDepthDesc nodes).map (fun m => (m.rel,
        (fun r' =>
          ({ meaningful := ((byDepthDesc nodes).foldl (classifyStep inc ign) initCState).meaningful r'
             kind := ((byDepthDesc nodes).foldl (classifyStep inc ign) initCState).kinds r'
             in_scope := ((byDepthDesc nodes).foldl (classifyStep inc ign) initCState).in_scope r' } : DirClass))
          m.rel))) r := rfl
  rw [hdef, h]
  by_cases hr : r ∈ (byDepthDesc nodes).map DirNode.rel
  · rw [if_pos hr]
  · rw [if_neg hr]
    have hfr : ∀ n ∈ byDepthDesc nodes, n.rel ≠ r := by
      intro n hn he
      exact hr (List.mem_map.mpr ⟨n, hn, he⟩)
    have hfrm := foldl_classify_frame inc ign (byDepthDesc nodes) initCState hfr
    rw [hfrm.1, hfrm.2.1, hfrm.2.2]
    rfl

theorem final_M_imp_S (inc ign : List GlobRx) :
    ∀ (l : List DirNode) (st : CState),
      (∀ r, st.meaningful r = true → st.in_scope r = true) →
      ∀ r, (l.foldl (classifyStep inc ign) st).meaningful r = true →
        (l.foldl (classifyStep inc ign) st).in_scope r = true := by
  intro l
  induction l with
  | nil => intro st h; exact h
  | cons n tail ih =>
    intro st h
    refine ih (classifyStep inc ign st n) ?_
    intro r hm
    by_cases he : r = n.rel
    · subst he
      rw [(classifyStep_at_self inc ign st n).2.1, Bool.and_eq_true] at hm
      exact hm.1
    · rw [(classifyStep_frame inc ign st n he).2.1] at hm
      rw [(classifyStep_frame inc ign st n he).1]
      exact h r hm

theorem byDepth_pairwise (nodes : List DirNode) :
    (byDepthDesc nodes).Pairwise (fun a b => b.depth ≤ a.depth) := by
  have h := @pairwise_sortLe DirNode (fun a b : DirNode => decide (b.depth ≤ a.depth))
    (by intro x y hxy; simp at hxy ⊢; omega)
    (by intro x y z hxy hyz; simp at hxy hyz ⊢; omega)
    nodes
  refine h.imp ?_
  intro a b hab
  simpa using hab

theorem nodup_decomp {l₁ l₂ : List DirNode} {n : DirNode}
    (hnd : ((l₁ ++ n :: l₂).map DirNode.rel).Nodup) :
    n.rel ∉ l₁.map DirNode.rel ∧ n.rel ∉ l₂.map DirNode.rel := by
  rw [List.map_append, List.map_cons] at hnd
  rcases List.nodup_append.mp hnd with ⟨-, hmid, hdisj⟩
  refine ⟨fun hc => hdisj hc (by simp), (List.nodup_cons.mp hmid).1⟩

theorem classify_char (inc ign : List GlobRx) (nodes : List DirNode)
    (hWF : WFNodes nodes) (n : DirNode) (hn : n ∈ nodes) :
    (classAt (classify_dirs inc ign nodes) n.rel).in_scope =
      ((if !inc.isEmpty then
          matchesAny (dirMatchPath n.rel) inc ||
            !(selectedLocalFiles inc ign n).isEmpty ||
            n.children.any (fun ch => (classAt (classify_dirs inc ign nodes) ch).in_scope)
        else true) &&
        !(if !ign.isEmpty then matchesAny (dirMatchPath n.rel) ign else false)) ∧
    (classAt (classify_dirs inc ign nodes) n.rel).meaningful =
      ((classAt (classify_dirs inc ign nodes) n.rel).in_scope &&
        (!(selectedLocalFiles inc ign n).isEmpty ||
          n.children.any (fun ch =>
            (classAt (classify_dirs inc ign nodes) ch).in_scope &&
            (classAt (classify_dirs inc ign nodes) ch).meaningful))) ∧
    (classAt (classify_dirs inc ign nodes) n.rel).kind =
      (if !(classAt (classify_dirs inc ign nodes) n.rel).meaningful then "leaf"
       else if n.children.any (fun ch =>
           (classAt (classify_dirs inc ign nodes) ch).in_scope &&
           (classAt (classify_dirs inc ign nodes) ch).meaningful) then
         (if !(selectedLocalFiles inc ign n).isEmpty then "non-leaf"
          else "aggregator-only")
       else "leaf") := by
  have hpm : List.Perm (byDepthDesc nodes) nodes :=
    perm_sortLe (fun a b : DirNode => decide (b.depth ≤ a.depth)) nodes
  have hmemBD : n ∈ byDepthDesc nodes := hpm.mem_iff.mpr hn
  have hnd : ((byDepthDesc nodes).map DirNode.rel).Nodup :=
    ((hpm.map DirNode.rel).nodup_iff).mpr hWF.1
  rcases List.append_of_mem hmemBD with ⟨l₁, l₂, hsplit⟩
  have hnd' := hsplit ▸ hnd
  rcases nodup_decomp hnd' with ⟨hnl₁, hnl₂⟩
  have hfold : (byDepthDesc nodes).foldl (classifyStep inc ign) initCState =
      (n :: l₂).foldl (classifyStep inc ign)
        (l₁.foldl (classifyStep inc ign) initCState) := by
    rw [hsplit, List.foldl_append]
  have hpair := byDepth_pairwise nodes
  rw [hsplit] at hpair
  have hpairn : ∀ m ∈ l₂, m.depth ≤ n.depth := by
    have h2 := (List.pairwise_append.mp hpair).2.1
    intro m hm
    exact (List.pairwise_cons.mp h2).1 m hm
  -- the state just before n is processed
  have hagree : ∀ ch ∈ n.children,
      ((l₁.foldl (classifyStep inc ign) initCState).in_scope ch =
        ((byDepthDesc nodes).foldl (classifyStep inc ign) initCState).in_scope ch) ∧
      ((l₁.foldl (classifyStep inc ign) initCState).meaningful ch =
        ((byDepthDesc nodes).foldl (classifyStep inc ign) initCState).meaningful ch) := by
    intro ch hch
    have hchn : ch ≠ n.rel := by
      intro he
      exact absurd (hWF.2 n hn ch hch n hn he.symm) (lt_irrefl _)
    have hchl₂ : ∀ m ∈ l₂, m.rel ≠ ch := by
      intro m hm he
      have hmn : m ∈ nodes := by
        refine hpm.mem_iff.mp ?_
        rw [hsplit]
        simp [hm]
      have := hWF.2 n hn ch hch m hmn he
      have := hpairn m hm
      omega
    have hfr : ∀ m ∈ (n :: l₂), m.rel ≠ ch := by
      intro m hm
      rcases List.mem_cons.mp hm with rfl | hm
      · exact fun he => hchn he.symm
      · exact hchl₂ m hm
    have := foldl_classify_frame inc ign (n :: l₂)
      (l₁.foldl (classifyStep inc ign) initCState) hfr
    rw [hfold]
    exact ⟨this.1.symm, this.2.1.symm⟩
  -- the final value at n.rel is the value computed at n's own step
  have hself : ∀ m ∈ l₂, m.rel ≠ n.rel := by
    intro m hm he
    exact hnl₂ (List.mem_map.mpr ⟨m, hm, he⟩)
  have hfinal := foldl_classify_frame inc ign l₂
    (classifyStep inc ign (l₁.foldl (classifyStep inc ign) initCState) n) hself
  have hstep := classifyStep_at_self inc ign
    (l₁.foldl (classifyStep inc ign) initCState) n
  have e1 : ((byDepthDesc nodes).foldl (classifyStep inc ign) initCState).in_scope n.rel =
      (classifyStep inc ign (l₁.foldl (classifyStep inc ign) initCState) n).in_scope n.rel := by
    rw [hfold]; exact hfinal.1
  have e2 : ((byDepthDesc nodes).foldl (classifyStep inc ign) initCState).meaningful n.rel =
      (classifyStep inc ign (l₁.foldl (classifyStep inc ign) initCState) n).meaningful n.rel := by
    rw [hfold]; exact hfinal.2.1
  have e3 : ((byDepthDesc nodes).foldl (classifyStep inc ign) initCState).kinds n.rel =
      (classifyStep inc ign (l₁.foldl (classifyStep inc ign) initCState) n).kinds n.rel := by
    rw [hfold]; exact hfinal.2.2
  have hanyS : n.children.any (l₁.foldl (classifyStep inc ign) initCState).in_scope =
      n.children.any (fun ch => (classAt (classify_dirs inc ign nodes) ch).in_scope) := by
    refine any_congr_mem ?_
    intro ch hch
    show (l₁.foldl (classifyStep inc ign) initCState).in_scope ch =
      (classAt (classify_dirs inc ign nodes) ch).in_scope
    rw [classAt_classify]
    exact (hagree ch hch).1
  have hanyMS : n.children.any (fun ch =>
        (l₁.foldl (classifyStep inc ign) initCState).in_scope ch &&
        (l₁.foldl (classifyStep inc ign) initCState).meaningful ch) =
      n.children.any (fun ch =>
        (classAt (classify_dirs inc ign nodes) ch).in_scope &&
        (classAt (classify_dirs inc ign nodes) ch).meaningful) := by
    refine any_congr_mem ?_
    intro ch hch
    show ((l₁.foldl (classifyStep inc ign) initCState).in_scope ch &&
        (l₁.foldl (classifyStep inc ign) initCState).meaningful ch) =
      ((classAt (classify_dirs inc ign nodes) ch).in_scope &&
        (classAt (classify_dirs inc ign nodes) ch).meaningful)
    rw [classAt_classify, (hagree ch hch).1, (hagree ch hch).2]
  refine ⟨?_, ?_, ?_⟩
  · rw [classAt_classify]
    show ((byDepthDesc nodes).foldl (classifyStep inc ign) initCState).in_scope n.rel = _
    rw [e1, hstep.1, hanyS]
  · rw [classAt_classify]
    show ((byDepthDesc nodes).foldl (classifyStep inc ign) initCState).meaningful n.rel =
      (((byDepthDesc nodes).foldl (classifyStep inc ign) initCState).in_scope n.rel &&
        (!(selectedLocalFiles inc ign n).isEmpty ||
          n.children.any (fun ch =>
            (classAt (classify_dirs inc ign nodes) ch).in_scope &&
            (classAt (classify_dirs inc ign nodes) ch).meaningful)))
    rw [e2, hstep.2.1, hanyMS, ← e1]
  · rw [classAt_classify]
    show ((byDepthDesc nodes).foldl (classifyStep inc ign) initCState).kinds n.rel =
      (if !((byDepthDesc nodes).foldl (classifyStep inc ign) initCState).meaningful n.rel
       then "leaf"
       else if n.children.any (fun ch =>
           (classAt (classify_dirs inc ign nodes) ch).in_scope &&
           (classAt (classify_dirs inc ign nodes) ch).meaningful) then
         (if !(selectedLocalFiles inc ign n).isEmpty then "non-leaf"
          else "aggregator-only")
       else "leaf")
    rw [e3, hstep.2.2, hanyMS, ← e2]

theorem classAt_M_imp_S (inc ign : List GlobRx) (nodes : List DirNode) (r : String) :
    (classAt (classify_dirs inc ign nodes) r).meaningful = true →
    (classAt (classify_dirs inc ign nodes) r).in_scope = true := by
  rw [classAt_classify]
  intro h
  refine final_M_imp_S inc ign (byDepthDesc nodes) initCState ?_ r h
  intro r' h'
  cases h'

/-! ## C2, C3, C10: classifier claims -/

/-- C3: ignore wins — a directory whose directory path matches an ignore
pattern is out of scope no matter what; otherwise it is in scope iff the
include list is empty, or its directory path matches an include pattern, or
it has a selected local file, or it has an in-scope child. -/
theorem C3_ignore_wins_in_scope (inc ign : List GlobRx) (nodes : List DirNode)
    (hWF : WFNodes nodes) (n : DirNode) (hn : n ∈ nodes) :
    (matchesAny (dirMatchPath n.rel) ign = true →
      (classAt (classify_dirs inc ign nodes) n.rel).in_scope = false) ∧
    (matchesAny (dirMatchPath n.rel) ign = false →
      ((classAt (classify_dirs inc ign nodes) n.rel).in_scope = true ↔
        (inc = [] ∨ matchesAny (dirMatchPath n.rel) inc = true ∨
          selectedLocalFiles inc ign n ≠ [] ∨
          ∃ ch ∈ n.children,
            (classAt (classify_dirs inc ign nodes) ch).in_scope = true))) := by
  have hc := (classify_char inc ign nodes hWF n hn).1
  constructor
  · intro hig
    have hignne : ign.isEmpty = false := by
      cases hie : ign with
      | nil => rw [hie] at hig; exact absurd hig (by simp [matchesAny_nil])
      | cons g tl => simp
    rw [hc, hig, hignne]
    simp
  · intro hig
    rw [hc, hig]
    have hfac : !(if !ign.isEmpty = true then false else false) = true := by
      simp
    by_cases hincE : inc = []
    · subst hincE
      simp
    · have hincne : inc.isEmpty = false := by
        cases hie : inc with
        | nil => exact absurd hie hincE
        | cons g tl => simp
      rw [hincne]
      simp only [Bool.not_false, if_true, ite_self, Bool.and_true,
        Bool.or_eq_true, Bool.not_eq_true', List.isEmpty_eq_false,
        List.any_eq_true, hincE, false_or]
      tauto

/-- C3 witness: the scope characterization at the root of the example map
with no patterns configured. -/
theorem C3_witness :
    WFNodes exNodes ∧ exRoot ∈ exNodes ∧
    ((matchesAny (dirMatchPath exRoot.rel) [] = true →
        (classAt (classify_dirs [] [] exNodes) exRoot.rel).in_scope = false) ∧
      (matchesAny (dirMatchPath exRoot.rel) [] = false →
        ((classAt (classify_dirs [] [] exNodes) exRoot.rel).in_scope = true ↔
          (([] : List GlobRx) = [] ∨ matchesAny (dirMatchPath exRoot.rel) [] = true ∨
            selectedLocalFiles [] [] exRoot ≠ [] ∨
            ∃ ch ∈ exRoot.children,
              (classAt (classify_dirs [] [] exNodes) ch).in_scope = true)))) :=
  ⟨⟨by decide, by decide⟩, by decide,
    C3_ignore_wins_in_scope [] [] exNodes ⟨by decide, by decide⟩ exRoot (by decide)⟩

/-- C2: meaningfulness is in-scope plus a local selected file or a
meaningful child; the kind is leaf / non-leaf / aggregator-only according to
meaningfulness, the existence of a meaningful child, and local selected
files. -/
theorem C2_classify_meaningful_kind (inc ign : List GlobRx) (nodes : List DirNode)
    (hWF : WFNodes nodes) (n : DirNode) (hn : n ∈ nodes) :
    ((classAt (classify_dirs inc ign nodes) n.rel).meaningful = true ↔
      ((classAt (classify_dirs inc ign nodes) n.rel).in_scope = true ∧
        (selectedLocalFiles inc ign n ≠ [] ∨
          ∃ ch ∈ n.children,
            (classAt (classify_dirs inc ign nodes) ch).meaningful = true))) ∧
    ((classAt (classify_dirs inc ign nodes) n.rel).kind = "leaf" ↔
      ((classAt (classify_dirs inc ign nodes) n.rel).meaningful = false ∨
        ¬ ∃ ch ∈ n.children,
          (classAt (classify_dirs inc ign nodes) ch).meaningful = true)) ∧
    ((classAt (classify_dirs inc ign nodes) n.rel).kind = "non-leaf" ↔
      ((classAt (classify_dirs inc ign nodes) n.rel).meaningful = true ∧
        (∃ ch ∈ n.children,
          (classAt (classify_dirs inc ign nodes) ch).meaningful = true) ∧
        selectedLocalFiles inc ign n ≠ [])) ∧
    ((classAt (classify_dirs inc ign nodes) n.rel).kind = "aggregator-only" ↔
      ((classAt (classify_dirs inc ign nodes) n.rel).meaningful = true ∧
        (∃ ch ∈ n.children,
          (classAt (classify_dirs inc ign nodes) ch).meaningful = true) ∧
        selectedLocalFiles inc ign n = [])) := by
  have hchar := classify_char inc ign nodes hWF n hn
  have hiff : (n.children.any (fun ch =>
        (classAt (classify_dirs inc ign nodes) ch).in_scope &&
        (classAt (classify_dirs inc ign nodes) ch).meaningful)) = true ↔
      ∃ ch ∈ n.children, (classAt (classify_dirs inc ign nodes) ch).meaningful = true := by
    rw [List.any_eq_true]
    constructor
    · rintro ⟨ch, hch, hb⟩
      rw [Bool.and_eq_true] at hb
      exact ⟨ch, hch, hb.2⟩
    · rintro ⟨ch, hch, hm⟩
      refine ⟨ch, hch, ?_⟩
      rw [Bool.and_eq_true]
      exact ⟨classAt_M_imp_S inc ign nodes ch hm, hm⟩
  refine ⟨?_, ?_, ?_, ?_⟩
  · rw [hchar.2.1]
    simp only [Bool.and_eq_true, Bool.or_eq_true, Bool.not_eq_true',
      List.isEmpty_eq_false]
    rw [hiff]
  · rw [hchar.2.2]
    by_cases hM : (classAt (classify_dirs inc ign nodes) n.rel).meaningful = true
    · rw [hM]
      cases hC : (n.children.any (fun ch =>
          (classAt (classify_dirs inc ign nodes) ch).in_scope &&
          (classAt (classify_dirs inc ign nodes) ch).meaningful)) with
      | false =>
        have hne : ¬ ∃ ch ∈ n.children,
            (classAt (classify_dirs inc ign nodes) ch).meaningful = true := by
          rw [← hiff, hC]; simp
        simp [hM, hne]
      | true =>
        have hex := hiff.mp hC
        by_cases hSel : (selectedLocalFiles inc ign n).isEmpty = true
        · simp [hM, hSel, hex]
        · simp only [Bool.not_eq_true] at hSel
          simp [hM, hSel, hex]
    · simp only [Bool.not_eq_true] at hM
      simp [hM]
  · rw [hchar.2.2]
    by_cases hM : (classAt (classify_dirs inc ign nodes) n.rel).meaningful = true
    · rw [hM]
      cases hC : (n.children.any (fun ch =>
          (classAt (classify_dirs inc ign nodes) ch).in_scope &&
          (classAt (classify_dirs inc ign nodes) ch).meaningful)) with
      | false =>
        have hne : ¬ ∃ ch ∈ n.children,
            (classAt (classify_dirs inc ign nodes) ch).meaningful = true := by
          rw [← hiff, hC]; simp
        simp [hne]
      | true =>
        have hex := hiff.mp hC
        by_cases hSel : (selectedLocalFiles inc ign n).isEmpty = true
        · have hnil := List.isEmpty_iff.mp hSel
          simp [hSel, hex, hnil]
        · simp only [Bool.not_eq_true] at hSel
          have hnenil := List.isEmpty_eq_false.mp hSel
          simp [hSel, hex, hnenil]
    · simp only [Bool.not_eq_true] at hM
      simp [hM]
  · rw [hchar.2.2]
    by_cases hM : (classAt (classify_dirs inc ign nodes) n.rel).meaningful = true
    · rw [hM]
      cases hC : (n.children.any (fun ch =>
          (classAt (classify_dirs inc ign nodes) ch).in_scope &&
          (classAt (classify_dirs inc ign nodes) ch).meaningful)) with
      | false =>
        have hne : ¬ ∃ ch ∈ n.children,
            (classAt (classify_dirs inc ign nodes) ch).meaningful = true := by
          rw [← hiff, hC]; simp
        simp [hne]
      | true =>
        have hex := hiff.mp hC
        by_cases hSel : (selectedLocalFiles inc ign n).isEmpty = true
        · have hnil := List.isEmpty_iff.mp hSel
          simp [hSel, hex, hnil]
        · simp only [Bool.not_eq_true] at hSel
          have hnenil := List.isEmpty_eq_false.mp hSel
          simp [hSel, hex, hnenil]
    · simp only [Bool.not_eq_true] at hM
      simp [hM]

/-- C2 witness: the meaningfulness and kind characterization at the root of
the example map with no patterns configured. -/
theorem C2_witness :
    WFNodes exNodes ∧ exRoot ∈ exNodes ∧
    (((classAt (classify_dirs [] [] exNodes) exRoot.rel).meaningful = true ↔
      ((classAt (classify_dirs [] [] exNodes) exRoot.rel).in_scope = true ∧
        (selectedLocalFiles [] [] exRoot ≠ [] ∨
          ∃ ch ∈ exRoot.children,
            (classAt (classify_dirs [] [] exNodes) ch).meaningful = true))) ∧
    ((classAt (classify_dirs [] [] exNodes) exRoot.rel).kind = "leaf" ↔
      ((classAt (classify_dirs [] [] exNodes) exRoot.rel).meaningful = false ∨
        ¬ ∃ ch ∈ exRoot.children,
          (classAt (classify_dirs [] [] exNodes) ch).meaningful = true)) ∧
    ((classAt (classify_dirs [] [] exNodes) exRoot.rel).kind = "non-leaf" ↔
      ((classAt (classify_dirs [] [] exNodes) exRoot.rel).meaningful = true ∧
        (∃ ch ∈ exRoot.children,
          (classAt (classify_dirs [] [] exNodes) ch).meaningful = true) ∧
        selectedLocalFiles [] [] exRoot ≠ [])) ∧
    ((classAt (classify_dirs [] [] exNodes) exRoot.rel).kind = "aggregator-only" ↔
      ((classAt (classify_dirs [] [] exNodes) exRoot.rel).meaningful = true ∧
        (∃ ch ∈ exRoot.children,
          (classAt (classify_dirs [] [] exNodes) ch).meaningful = true) ∧
        selectedLocalFiles [] [] exRoot = []))) :=
  ⟨⟨by decide, by decide⟩, by decide,
    C2_classify_meaningful_kind [] [] exNodes ⟨by decide, by decide⟩ exRoot (by decide)⟩

/-- C10: the classification map has exactly the keys of the input node map —
every scanned directory receives a classification and no extra keys appear. -/
theorem C10_classify_keys (inc ign : List GlobRx) (nodes : List DirNode) (r : String) :
    (∃ e ∈ classify_dirs inc ign nodes, e.1 = r) ↔ ∃ n ∈ nodes, n.rel = r := by
  have hpm : List.Perm (byDepthDesc nodes) nodes :=
    perm_sortLe (fun a b : DirNode => decide (b.depth ≤ a.depth)) nodes
  constructor
  · rintro ⟨e, he, hr⟩
    subst hr
    rcases List.mem_map.mp he with ⟨n, hn, hne⟩
    refine ⟨n, hpm.mem_iff.mp hn, ?_⟩
    rw [← hne]
  · rintro ⟨n, hn, hr⟩
    subst hr
    refine ⟨(n.rel,
      { meaningful := ((byDepthDesc nodes).foldl (classifyStep inc ign) initCState).meaningful n.rel
        kind := ((byDepthDesc nodes).foldl (classifyStep inc ign) initCState).kinds n.rel
        in_scope := ((byDepthDesc nodes).foldl (classifyStep inc ign) initCState).in_scope n.rel }),
      ?_, rfl⟩
    exact List.mem_map.mpr ⟨n, hpm.mem_iff.mpr hn, rfl⟩

/-! ## C8: change-set resolver -/

theorem pref_dropLast {a d : List α} (h : a <+: d) (hne : a ≠ d) : a <+: d.dropLast := by
  rcases h with ⟨t, ht⟩
  have htne : t ≠ [] := by
    intro hc
    subst hc
    simp at ht
    exact hne ht
  rw [← ht, List.dropLast_append_of_ne_nil _ htne]
  exact ⟨t.dropLast, rfl⟩

theorem pref_of_pref_dropLast {a d : List α} (hd : d ≠ []) (h : a <+: d.dropLast) :
    a <+: d ∧ a ≠ d := by
  have h1 : a <+: d := h.trans (List.dropLast_prefix d)
  refine ⟨h1, ?_⟩
  intro hc
  subst hc
  have h2 := h.length_le
  rw [List.length_dropLast] at h2
  have h4 : 0 < a.length := List.length_pos.mpr hd
  omega

theorem mem_walkUpFuel (root scanned : List String) :
    ∀ (fuel : Nat) (d : List String), d.length < fuel →
      ∀ r, r ∈ walkUpFuel root scanned fuel d ↔
        (r ∈ scanned ∧ ∃ a, root <+: a ∧ a <+: d ∧
          relStrOfParts (a.drop root.length) = r) := by
  intro fuel
  induction fuel with
  | zero => intro d h; omega
  | succ n ih =>
    intro d hd r
    by_cases hpre : root.isPrefixOf d = true
    · have hpre' : root <+: d := List.isPrefixOf_iff_prefix.mp hpre
      simp only [walkUpFuel, relPartsOf, hpre, if_true]
      by_cases heq : d = root
      · rw [if_pos heq]
        constructor
        · intro hr
          by_cases hs : scanned.contains (relStrOfParts (d.drop root.length)) = true
          · rw [if_pos hs] at hr
            rcases List.mem_singleton.mp hr with rfl
            exact ⟨by simpa using hs, d, hpre', List.prefix_refl d, rfl⟩
          · rw [if_neg hs] at hr
            simp at hr
        · rintro ⟨hsc, a, ha1, ha2, ha3⟩
          have hda : d.length ≤ a.length := by
            rw [heq]; exact ha1.length_le
          have haeq : a = d := List.IsPrefix.eq_of_length ha2
            (le_antisymm ha2.length_le hda)
          subst haeq
          rw [if_pos (by rw [ha3]; simpa using hsc)]
          rw [ha3]
          exact List.mem_singleton.mpr rfl
      · rw [if_neg heq]
        have hdne : d ≠ [] := by
          intro hc
          subst hc
          have hrl : root.length ≤ 0 := by simpa using hpre'.length_le
          have hre : root = [] := List.eq_nil_of_length_eq_zero (by omega)
          exact heq hre.symm
        have hlen : d.dropLast.length < n := by
          rw [List.length_dropLast]
          have h4 : 0 < d.length := List.length_pos.mpr hdne
          omega
        rw [List.mem_append, ih d.dropLast hlen r]
        constructor
        · rintro (hr | ⟨hs, a, ha1, ha2, ha3⟩)
          · by_cases hs : scanned.contains (relStrOfParts (d.drop root.length)) = true
            · rw [if_pos hs] at hr
              rcases List.mem_singleton.mp hr with rfl
              exact ⟨by simpa using hs, d, hpre', List.prefix_refl d, rfl⟩
            · rw [if_neg hs] at hr
              simp at hr
          · exact ⟨hs, a, ha1, (pref_of_pref_dropLast hdne ha2).1, ha3⟩
        · rintro ⟨hs, a, ha1, ha2, ha3⟩
          by_cases haeq : a = d
          · subst haeq
            left
            rw [if_pos (by rw [ha3]; simpa using hs)]
            rw [ha3]
            exact List.mem_singleton.mpr rfl
          · right
            exact ⟨hs, a, ha1, pref_dropLast ha2 haeq, ha3⟩
    · have hpre' : ¬ root <+: d := fun hc =>
        hpre (List.isPrefixOf_iff_prefix.mpr hc)
      simp only [walkUpFuel, relPartsOf, hpre, Bool.false_eq_true, if_false]
      constructor
      · intro hr
        simp at hr
      · rintro ⟨-, a, ha1, ha2, -⟩
        exact absurd (ha1.trans ha2) hpre'

/-- C8: `_compute_update_dirs` returns exactly the scanned relative paths of
ancestors (from each changed file's parent up to the root inclusive) of the
changed files; the spec's concrete scenario evaluates to exactly
{".", "x", "x/y"}, and an empty changed-file list yields the empty set. -/
theorem C8_resolve_changed_dirs :
    (∀ (root : List String) (changed : List (List String)) (scanned : List String)
        (r : String),
      r ∈ compute_update_dirs root changed scanned ↔
        (r ∈ scanned ∧ ∃ f ∈ changed, ∃ a, root <+: a ∧ a <+: f.dropLast ∧
          relStrOfParts (a.drop root.length) = r)) ∧
    compute_update_dirs ["R"] [["R", "x", "y", "z.txt"]] [".", "x", "x/y"] =
      ["x/y", "x", "."] ∧
    (∀ (root : List String) (scanned : List String),
      compute_update_dirs root [] scanned = []) := by
  refine ⟨?_, by decide, fun root scanned => rfl⟩
  intro root changed scanned r
  unfold compute_update_dirs
  rw [List.mem_flatMap]
  constructor
  · rintro ⟨f, hf, hr⟩
    rcases (mem_walkUpFuel root scanned (f.dropLast.length + 1) f.dropLast
      (by omega) r).mp hr with ⟨hs, a, ha⟩
    exact ⟨hs, f, hf, a, ha⟩
  · rintro ⟨hs, f, hf, a, ha⟩
    exact ⟨f, hf, (mem_walkUpFuel root scanned (f.dropLast.length + 1) f.dropLast
      (by omega) r).mpr ⟨hs, a, ha⟩⟩

/-! ## Distinctness of scanned relative paths -/

theorem namesNodup_spec : ∀ {l : List String}, namesNodupB l = true → l.Nodup := by
  intro l
  induction l with
  | nil => intro _; exact List.nodup_nil
  | cons n rest ih =>
    intro h
    simp only [namesNodupB, Bool.and_eq_true, Bool.not_eq_true'] at h
    refine List.nodup_cons.mpr ⟨?_, ih h.2⟩
    intro hc
    rw [show rest.contains n = true by simpa [List.contains] using hc] at h
    cases h.1

theorem slashfree_concat_pref {a b : List Char} (ha : '/' ∉ a) (hb : '/' ∉ b)
    (h : a ++ ['/'] <+: b ++ ['/']) : a = b := by
  induction a generalizing b with
  | nil =>
    cases b with
    | nil => rfl
    | cons y b' =>
      simp only [List.nil_append, List.cons_append] at h
      rcases List.cons_prefix_cons.mp h with ⟨he, -⟩
      exact absurd (he ▸ List.mem_cons_self y b') hb
  | cons x a' ih =>
    cases b with
    | nil =>
      simp only [List.cons_append, List.nil_append] at h
      rcases List.cons_prefix_cons.mp h with ⟨he, -⟩
      exact absurd (he ▸ List.mem_cons_self x a') ha
    | cons y b' =>
      simp only [List.cons_append] at h
      rcases List.cons_prefix_cons.mp h with ⟨he, hrest⟩
      subst he
      have ha' : '/' ∉ a' := fun hc => ha (List.mem_cons_of_mem _ hc)
      have hb' : '/' ∉ b' := fun hc => hb (List.mem_cons_of_mem _ hc)
      rw [ih ha' hb' hrest]

theorem pref_comparable {l₁ l₂ l₃ : List α} (h1 : l₁ <+: l₃) (h2 : l₂ <+: l₃) :
    l₁ <+: l₂ ∨ l₂ <+: l₁ := by
  induction l₃ generalizing l₁ l₂ with
  | nil =>
    left
    rw [List.prefix_nil.mp h1]
    exact List.nil_prefix
  | cons c t ih =>
    cases l₁ with
    | nil => left; exact List.nil_prefix
    | cons x xs =>
      cases l₂ with
      | nil => right; exact List.nil_prefix
      | cons y ys =>
        rcases List.cons_prefix_cons.mp h1 with ⟨rfl, h1'⟩
        rcases List.cons_prefix_cons.mp h2 with ⟨rfl, h2'⟩
        rcases ih h1' h2' with h | h
        · left; exact List.cons_prefix_cons.mpr ⟨rfl, h⟩
        · right; exact List.cons_prefix_cons.mpr ⟨rfl, h⟩

theorem joinRel_slash_data (rel nm : String) :
    (joinRel rel nm ++ "/").data =
      (if rel = "." then ([] : List Char) else rel.data ++ ['/']) ++
        (nm.data ++ ['/']) := by
  by_cases hr : rel = "."
  · simp [joinRel, hr, String.data_append]
  · simp [joinRel, hr, String.data_append]

theorem walk_rels_under (inc ign : List GlobRx) :
    ∀ (N : Nat) (d : FSDir) (J : String), dirSize d ≤ N → validTreeB d = true →
      J ≠ "." → ∀ e ∈ walkDir inc ign J d,
        e.1 = J ∨ ((J ++ "/").data <+: e.1.data) := by
  intro N
  induction N with
  | zero =>
    intro d J hsz
    cases d with
    | mk files s => simp [dirSize] at hsz
  | succ N ih =>
    intro d J hsz hv hJ e he
    cases d with
    | mk files s =>
      rcases mem_walkDir_cases he with h | ⟨nm, d', hfind, hmem, -, hew⟩
      · subst h; exact Or.inl rfl
      · have hvs : validSubsB s = true := by
          simp only [validTreeB, Bool.and_eq_true] at hv
          exact hv.2
        rcases findSub_valid _ hvs hfind with ⟨hvd', hvnm⟩
        have hsz' : dirSize d' ≤ N := by
          have := findSub_size _ hfind
          simp only [dirSize] at hsz
          omega
        have hJ' : joinRel J nm ≠ "." := joinRel_ne_dot hvnm
        have hJpref : (J ++ "/").data <+: (joinRel J nm).data := by
          rw [joinRel_data hJ, String.data_append]
          refine ⟨nm.data, ?_⟩
          simp
        rcases ih d' (joinRel J nm) hsz' hvd' hJ' e hew with h | h
        · right; rw [h]; exact hJpref
        · right
          refine List.IsPrefix.trans ?_ h
          refine List.IsPrefix.trans hJpref ?_
          rw [String.data_append]
          exact List.prefix_append _ _

theorem branch_entry_pref {inc ign : List GlobRx} {J : String} {d : FSDir}
    {e : String × DirNode} (hJ : J ≠ ".") (hvd : validTreeB d = true)
    (he : e ∈ walkDir inc ign J d) :
    (J ++ "/").data <+: (e.1 ++ "/").data := by
  rcases walk_rels_under inc ign (dirSize d) d J le_rfl hvd hJ e he with h | h
  · rw [h]
  · refine List.IsPrefix.trans h ?_
    rw [String.data_append]
    exact List.prefix_append _ _

theorem branch_names_eq {rel nm₁ nm₂ r : String}
    (hv₁ : validNameB nm₁ = true) (hv₂ : validNameB nm₂ = true)
    (h₁ : (joinRel rel nm₁ ++ "/").data <+: (r ++ "/").data)
    (h₂ : (joinRel rel nm₂ ++ "/").data <+: (r ++ "/").data) : nm₁ = nm₂ := by
  rcases validNameB_spec hv₁ with ⟨-, -, hs₁⟩
  rcases validNameB_spec hv₂ with ⟨-, -, hs₂⟩
  have hcomp := pref_comparable h₁ h₂
  rw [joinRel_slash_data rel nm₁, joinRel_slash_data rel nm₂] at hcomp
  rcases hcomp with h | h
  · have h' := (List.prefix_append_right_inj _).mp h
    exact strEq_of_data (slashfree_concat_pref hs₁ hs₂ h')
  · have h' := (List.prefix_append_right_inj _).mp h
    exact (strEq_of_data (slashfree_concat_pref hs₂ hs₁ h')).symm

theorem walk_rels_nodup (inc ign : List GlobRx) :
    ∀ (N : Nat) (d : FSDir) (rel : String), dirSize d ≤ N → validTreeB d = true →
      ((walkDir inc ign rel d).map Prod.fst).Nodup := by
  intro N
  induction N with
  | zero =>
    intro d rel hsz
    cases d with
    | mk files s => simp [dirSize] at hsz
  | succ N ih =>
    intro d rel hsz hv
    cases d with
    | mk files s =>
      have hvs : validSubsB s = true := by
        simp only [validTreeB, Bool.and_eq_true] at hv
        exact hv.2
      have hnames : (subNames s).Nodup := namesNodup_spec (by
        simp only [validTreeB, Bool.and_eq_true] at hv
        exact hv.1)
      rw [walkDir_cons]
      simp only [List.map_cons]
      rw [List.nodup_cons, List.map_flatMap]
      constructor
      · intro hcon
        rcases List.mem_flatMap.mp hcon with ⟨nm, hnm, hrin⟩
        rcases List.mem_filter.mp (mem_sortStr.mp hnm) with ⟨hmem, -⟩
        have hvnm := subNames_valid s hvs nm hmem
        rcases List.mem_map.mp hrin with ⟨e, he, hfst⟩
        rw [lookupWalk_walkSubsAll] at he
        cases hfind : findSub nm s with
        | none => rw [hfind] at he; simp at he
        | some d' =>
          rw [hfind] at he
          rcases findSub_valid _ hvs hfind with ⟨hvd', -⟩
          rcases (walk_entries_struct inc ign (dirSize d') d' (joinRel rel nm)
              le_rfl hvd' e he).2 with h | h
          · rw [hfst] at h
            have hdj := @relDepth_joinRel rel nm hvnm
            rw [← h] at hdj
            omega
          · rw [hfst, relDepth_joinRel hvnm] at h
            omega
      · rw [List.nodup_flatMap]
        constructor
        · intro nm hnm
          rcases List.mem_filter.mp (mem_sortStr.mp hnm) with ⟨hmem, -⟩
          rw [lookupWalk_walkSubsAll]
          cases hfind : findSub nm s with
          | none => simp
          | some d' =>
            rcases findSub_valid _ hvs hfind with ⟨hvd', -⟩
            have hsz' : dirSize d' ≤ N := by
              have := findSub_size _ hfind
              simp only [dirSize] at hsz
              omega
            simpa using ih d' (joinRel rel nm) hsz' hvd'
        · have hLnodup : (sortStr ((subNames s).filter (descendKeep inc ign rel))).Nodup :=
            ((perm_sortLe _ _).nodup_iff).mpr (hnames.filter _)
          refine List.Pairwise.imp_of_mem ?_ hLnodup
          intro nm₁ nm₂ h1mem h2mem hne
          rcases List.mem_filter.mp (mem_sortStr.mp h1mem) with ⟨h1m, -⟩
          rcases List.mem_filter.mp (mem_sortStr.mp h2mem) with ⟨h2m, -⟩
          have hvn₁ := subNames_valid s hvs nm₁ h1m
          have hvn₂ := subNames_valid s hvs nm₂ h2m
          intro r hr1 hr2
          simp only [] at hr1 hr2
          rw [lookupWalk_walkSubsAll] at hr1 hr2
          rcases hf1 : findSub nm₁ s with _ | d₁
          · rw [hf1] at hr1; simp at hr1
          rcases hf2 : findSub nm₂ s with _ | d₂
          · rw [hf2] at hr2; simp at hr2
          rw [hf1] at hr1
          rw [hf2] at hr2
          rcases findSub_valid _ hvs hf1 with ⟨hvd₁, -⟩
          rcases findSub_valid _ hvs hf2 with ⟨hvd₂, -⟩
          rcases List.mem_map.mp hr1 with ⟨e₁, he₁, hfst₁⟩
          rcases List.mem_map.mp hr2 with ⟨e₂, he₂, hfst₂⟩
          have hp₁ := branch_entry_pref (joinRel_ne_dot hvn₁) hvd₁ he₁
          have hp₂ := branch_entry_pref (joinRel_ne_dot hvn₂) hvd₂ he₂
          rw [hfst₁] at hp₁
          rw [hfst₂] at hp₂
          exact hne (branch_names_eq hvn₁ hvn₂ hp₁ hp₂)

theorem scan_entry_key (inc ign : List GlobRx) (t : FSDir) (hv : validTreeB t = true)
    (e : String × DirNode) (he : e ∈ scan_tree inc ign t) : e.2.rel = e.1 := by
  rcases (walk_entries_struct inc ign (dirSize t) t "." le_rfl hv e he).1 with
    ⟨f, s, hnode, -⟩
  rw [hnode]
  rfl

/-- Every node map produced by a scan of a valid tree is well-formed:
distinct keys, listed children strictly deeper. -/
theorem scanNodes_WF (inc ign : List GlobRx) (t : FSDir) (hv : validTreeB t = true) :
    WFNodes (scanNodes inc ign t) := by
  constructor
  · have hmapeq : (scanNodes inc ign t).map DirNode.rel =
        (scan_tree inc ign t).map Prod.fst := by
      unfold scanNodes
      rw [List.map_map]
      refine List.map_congr_left ?_
      intro e he
      exact scan_entry_key inc ign t hv e he
    rw [hmapeq]
    exact walk_rels_nodup inc ign (dirSize t) t "." le_rfl hv
  · intro n hn c hc m hm hmc
    rcases List.mem_map.mp hn with ⟨e, he, hne⟩
    rcases List.mem_map.mp hm with ⟨e', he', hme⟩
    rcases (walk_entries_struct inc ign (dirSize t) t "." le_rfl hv e he).1 with
      ⟨f, s, hnode, hvd⟩
    rcases (walk_entries_struct inc ign (dirSize t) t "." le_rfl hv e' he').1 with
      ⟨f', s', hnode', -⟩
    subst hne
    subst hme
    rw [hnode] at hc ⊢
    rw [hnode'] at hmc ⊢
    simp only [mkDirNode, List.mem_map] at hc
    rcases hc with ⟨x, hx, hxe⟩
    rcases List.mem_filter.mp (mem_sortStr.mp hx) with ⟨hxmem, -⟩
    have hvs : validSubsB s = true := by
      simp only [validTreeB, Bool.and_eq_true] at hvd
      exact hvd.2
    have hvx := subNames_valid s hvs x hxmem
    show relDepth e.1 < relDepth e'.1
    have hkey : e'.1 = c := hmc
    rw [hkey, ← hxe, relDepth_joinRel hvx]
    omega

/-! ## C9: monotone meaningfulness over scanned maps -/

/-- C9: in a scanned node map, if a listed child is meaningful and in scope
and its parent is in scope, the parent is meaningful, regardless of the
parent's own files. -/
theorem C9_monotone_meaningfulness (inc ign : List GlobRx) (t : FSDir)
    (hv : validTreeB t = true) (p : DirNode) (hp : p ∈ scanNodes inc ign t)
    (c : String) (hc : c ∈ p.children)
    (hcm : (classAt (classify_dirs inc ign (scanNodes inc ign t)) c).meaningful = true)
    (hcs : (classAt (classify_dirs inc ign (scanNodes inc ign t)) c).in_scope = true)
    (hps : (classAt (classify_dirs inc ign (scanNodes inc ign t)) p.rel).in_scope = true) :
    (classAt (classify_dirs inc ign (scanNodes inc ign t)) p.rel).meaningful = true := by
  have hWF := scanNodes_WF inc ign t hv
  have hchar := (classify_char inc ign (scanNodes inc ign t) hWF p hp).2.1
  rw [hchar, hps, Bool.true_and, Bool.or_eq_true]
  right
  rw [List.any_eq_true]
  exact ⟨c, hc, by simp [hcs, hcm]⟩

/-- C9 witness: the monotonicity applied at the root of the concrete scanned
tree `c5Tree` and its meaningful child "docs". -/
theorem C9_witness :
    (validTreeB c5Tree = true) ∧
    (mkDirNode [] [] "." [] (subNames c5Subs) ∈ scanNodes [] [] c5Tree) ∧
    ("docs" ∈ (mkDirNode [] [] "." [] (subNames c5Subs)).children) ∧
    ((classAt (classify_dirs [] [] (scanNodes [] [] c5Tree)) "docs").meaningful = true) ∧
    ((classAt (classify_dirs [] [] (scanNodes [] [] c5Tree)) "docs").in_scope = true) ∧
    ((classAt (classify_dirs [] [] (scanNodes [] [] c5Tree))
        (mkDirNode [] [] "." [] (subNames c5Subs)).rel).in_scope = true) ∧
    (classAt (classify_dirs [] [] (scanNodes [] [] c5Tree))
        (mkDirNode [] [] "." [] (subNames c5Subs)).rel).meaningful = true :=
  ⟨by decide, by decide, by decide, by decide, by decide, by decide,
    C9_monotone_meaningfulness [] [] c5Tree (by decide)
      (mkDirNode [] [] "." [] (subNames c5Subs)) (by decide) "docs"
      (by decide) (by decide) (by decide) (by decide)⟩
